import Mathlib

/-!
# backport::cpp11::basic_string_view

A shallow embedding of `string_view.hpp`: the view (`ptr_`, `size_`), its
`const_iterator` (`view_`, `pos_`), `std::reverse_iterator` over it, and the
member functions built on them.

* Memory is a total map from addresses to character units; the null pointer is
  address `0`.  Character units are natural numbers, ordered the way
  `std::char_traits<char>` orders them (as `unsigned char`).
* `size_type` is `std::size_t` with 64 bits; every `size_type` operation is
  written with its reduction modulo `2 ^ 64`.
* A `const_iterator` stores the address of the view object it is bound to;
  view objects are looked up in a store `Views`.
* Loops of the standard algorithms carry a fuel argument and return `none`
  when it runs out.
-/

namespace backport

/-! ## Machine integers -/

/-- Number of values of `size_type` (`std::size_t`, 64 bits): `2 ^ 64`. -/
def size_mod : Nat := 18446744073709551616

/-- The constant `npos = std::numeric_limits<size_type>::max()`: `2 ^ 64 - 1`. -/
def npos : Nat := 18446744073709551615

/-- Addition in `size_type`. -/
def sz_add (a b : Nat) : Nat := (a + b) % size_mod

/-- Subtraction in `size_type` (wraps around below zero). -/
def sz_sub (a b : Nat) : Nat := (a % size_mod + (size_mod - b % size_mod)) % size_mod

/-- Conversion of a `size_type` value to `difference_type` (`std::ptrdiff_t`, two's
complement): values from `2 ^ 63` on are the negative ones. -/
def to_difference (n : Nat) : Int :=
  if n % size_mod < 9223372036854775808 then ((n % size_mod : Nat) : Int)
  else ((n % size_mod : Nat) : Int) - 18446744073709551616

/-- Conversion of a `difference_type` value to `size_type`. -/
def of_difference (d : Int) : Nat := (d % 18446744073709551616).toNat

/-! ## Data model -/

/-- Memory: the character unit stored at each address. -/
abbrev Mem := Nat → Nat

/-- The two ways a call can fail: `std::out_of_range` thrown, or an `assert` violated. -/
inductive Failure where
  | out_of_range : Failure
  | assertion : Failure
deriving DecidableEq, Repr

/-- The class `basic_string_view`: `ptr_` (address of the first unit, `0` for `nullptr`) and `size_`. -/
structure basic_string_view where
  ptr_ : Nat
  size_ : Nat
deriving DecidableEq, Repr

/-- The view objects, by address. -/
abbrev Views := Nat → basic_string_view

/-- The class `const_iterator`: `view_` is the address of the view object the
iterator is bound to (`0` for `nullptr`), `pos_` the position. -/
structure const_iterator where
  view_ : Nat
  pos_ : Nat
deriving DecidableEq, Repr

/-- The class `std::reverse_iterator<const_iterator>`: it wraps the iterator `current`. -/
structure reverse_iterator where
  current : const_iterator
deriving DecidableEq, Repr

/-! ## const_iterator -/

/-- The comparison `operator==`: `(this == &other) || ((view_ == other.view_) && (pos_ == other.pos_))`.
An iterator compared with itself satisfies the second disjunct too, so the
value is that of the second disjunct. -/
def const_iterator.eq (a b : const_iterator) : Bool :=
  a.view_ == b.view_ && a.pos_ == b.pos_

/-- The comparison `operator!=`: `!(*this == other)`. -/
def const_iterator.ne (a b : const_iterator) : Bool :=
  !(a.eq b)

/-- The comparison `operator<`: `(this != &other) && (view_ == other.view_) && (pos_ < other.pos_)`.
An iterator compared with itself fails the test on `pos_`, so the value is that of the
last two conjuncts. -/
def const_iterator.lt (a b : const_iterator) : Bool :=
  a.view_ == b.view_ && decide (a.pos_ < b.pos_)

/-- The comparison `operator>`: `(this != &other) && (view_ == other.view_) && (pos_ > other.pos_)`.
An iterator compared with itself fails the test on `pos_`, so the value is that of the
last two conjuncts. -/
def const_iterator.gt (a b : const_iterator) : Bool :=
  a.view_ == b.view_ && decide (a.pos_ > b.pos_)

/-- The comparison `operator<=`: `!(*this > other)`. -/
def const_iterator.le (a b : const_iterator) : Bool :=
  !(a.gt b)

/-- The comparison `operator>=`: `!(*this < other)`. -/
def const_iterator.ge (a b : const_iterator) : Bool :=
  !(a.lt b)

/-- The prefix `operator++`: `if (pos_ < view_->size()) ++pos_;`. -/
def const_iterator.pre_increment (vs : Views) (it : const_iterator) : const_iterator :=
  if it.pos_ < (vs it.view_).size_ then { it with pos_ := sz_add it.pos_ 1 } else it

/-- The prefix `operator--`: `if (pos_ > 0u) --pos_;`. -/
def const_iterator.pre_decrement (it : const_iterator) : const_iterator :=
  if it.pos_ > 0 then { it with pos_ := sz_sub it.pos_ 1 } else it

/-- The compound `operator+=`: `pos_ = std::min(view_->size(), pos_ + n);`. -/
def const_iterator.add_assign (vs : Views) (it : const_iterator) (n : Nat) : const_iterator :=
  { it with pos_ := min (vs it.view_).size_ (sz_add it.pos_ n) }

/-- The compound `operator-=`: `pos_ -= n; if (pos_ > view_->size()) pos_ = 0u;`. -/
def const_iterator.sub_assign (vs : Views) (it : const_iterator) (n : Nat) : const_iterator :=
  let p := sz_sub it.pos_ n
  if p > (vs it.view_).size_ then { it with pos_ := 0 } else { it with pos_ := p }

/-- The friend `operator+(it, n)`: `const_iterator{it} += n`. -/
def const_iterator.plus (vs : Views) (it : const_iterator) (n : Nat) : const_iterator :=
  it.add_assign vs n

/-- The friend `operator-(it, n)`: `const_iterator{it} -= n`. -/
def const_iterator.minus (vs : Views) (it : const_iterator) (n : Nat) : const_iterator :=
  it.sub_assign vs n

/-- The postfix `operator++(int)`: `const_iterator i{*this}; ++(*this); return i;`.  The
result is the returned iterator and the iterator itself after the call. -/
def const_iterator.post_increment (vs : Views) (it : const_iterator) :
    const_iterator × const_iterator :=
  (it, it.pre_increment vs)

/-- The postfix `operator--(int)`: `const_iterator i{*this}; --(*this); return i;`.  The
result is the returned iterator and the iterator itself after the call. -/
def const_iterator.post_decrement (it : const_iterator) : const_iterator × const_iterator :=
  (it, it.pre_decrement)

/-- The friend `operator+(n, it)`: `const_iterator{it} += n`. -/
def const_iterator.plus_left (vs : Views) (n : Nat) (it : const_iterator) : const_iterator :=
  it.add_assign vs n

/-- The friend `operator-(a, b)`: `difference_type d = a.pos_; d -= b.pos_; return d;`. -/
def const_iterator.difference (a b : const_iterator) : Int :=
  to_difference (sz_sub (of_difference (to_difference a.pos_)) b.pos_)

/-- The dereference `operator*`: `*(view_->data() + pos_)`. -/
def const_iterator.deref (vs : Views) (m : Mem) (it : const_iterator) : Nat :=
  m ((vs it.view_).ptr_ + it.pos_)

/-! ## std::reverse_iterator over const_iterator -/

/-- The comparison `operator==` of `std::reverse_iterator`: `x.base() == y.base()`. -/
def reverse_iterator.eq (x y : reverse_iterator) : Bool :=
  x.current.eq y.current

/-- The comparison `operator!=` of `std::reverse_iterator`: `x.base() != y.base()`. -/
def reverse_iterator.ne (x y : reverse_iterator) : Bool :=
  x.current.ne y.current

/-- The prefix `operator++` of `std::reverse_iterator`: `--current`. -/
def reverse_iterator.pre_increment (r : reverse_iterator) : reverse_iterator :=
  ⟨r.current.pre_decrement⟩

/-- The dereference of `std::reverse_iterator`: `Iter tmp = current; return *--tmp;`. -/
def reverse_iterator.deref (vs : Views) (m : Mem) (r : reverse_iterator) : Nat :=
  r.current.pre_decrement.deref vs m

/-- The `operator+(difference_type n)` of `std::reverse_iterator`:
`reverse_iterator(current - n)`, where `current - n` is the iterator's
`operator-(it, size_type)` with `n` converted to `size_type`. -/
def reverse_iterator.plus (vs : Views) (r : reverse_iterator) (n : Int) : reverse_iterator :=
  ⟨r.current.minus vs (of_difference n)⟩

/-- The difference `x - y` of two `std::reverse_iterator`s: `y.base() - x.base()`. -/
def reverse_iterator.difference (x y : reverse_iterator) : Int :=
  y.current.difference x.current

/-- The function `std::distance(first, last)` for random access iterators: `last - first`. -/
def reverse_iterator.distance (first last : reverse_iterator) : Int :=
  last.difference first

/-! ## std::char_traits -/

/-- The function `traits_type::eq`. -/
def traits_eq (a b : Nat) : Bool := a == b

/-- The function `traits_type::compare(s1, s2, n)` of the standard library: the first `n`
units of both ranges are compared in order, the first difference decides. -/
def traits_compare (m : Mem) : Nat → Nat → Nat → Int
  | _, _, 0 => 0
  | s1, s2, n + 1 =>
    if m s1 < m s2 then -1
    else if m s2 < m s1 then 1
    else traits_compare m (s1 + 1) (s2 + 1) n

/-- The function `traits_type::find(p, n, c)` of the standard library: the address of the
first of the `n` units from `p` on that equals `c`, `none` for the null pointer. -/
def traits_find (m : Mem) : Nat → Nat → Nat → Option Nat
  | _, 0, _ => none
  | p, n + 1, c => if traits_eq (m p) c then some p else traits_find m (p + 1) n c

/-- The function `traits_type::copy(dest, src, n)` of the standard library: assigns
`dest[i] = src[i]` for `i` from `0` to `n - 1`, in this order. -/
def traits_copy (m : Mem) : Nat → Nat → Nat → Mem
  | _, _, 0 => m
  | dest, src, n + 1 => traits_copy (Function.update m dest (m src)) (dest + 1) (src + 1) n

/-! ## Standard algorithms -/

/-- The operations the standard algorithms use of an iterator type: `++it`, `*it` and
`a == b` (the loops test `a != b`, which both iterator types define as `!(a == b)`). -/
structure Iter (I : Type) where
  next : I → I
  deref : I → Nat
  eq : I → I → Bool

/-- The operations of `const_iterator`. -/
def forward_iter (vs : Views) (m : Mem) : Iter const_iterator :=
  ⟨const_iterator.pre_increment vs, const_iterator.deref vs m, const_iterator.eq⟩

/-- The operations of `std::reverse_iterator<const_iterator>`. -/
def reverse_iter (vs : Views) (m : Mem) : Iter reverse_iterator :=
  ⟨reverse_iterator.pre_increment, reverse_iterator.deref vs m, reverse_iterator.eq⟩

/-- The algorithm `std::find_if(first, last, p)`:
`for (; first != last; ++first) if (p(*first)) return first; return last;`. -/
def std_find_if {I : Type} (ops : Iter I) (p : Nat → Bool) (last : I) : Nat → I → Option I
  | 0, _ => none
  | fuel + 1, first =>
    if ops.eq first last then some last
    else if p (ops.deref first) then some first
    else std_find_if ops p last fuel (ops.next first)

/-- The inner loop of `std::find_first_of`:
`for (it = s_first; it != s_last; ++it) if (p(*first, *it)) return first;`,
with result `true` when it returns. -/
def std_find_first_of_inner {J : Type} (ndl : Iter J) (p : Nat → Nat → Bool) (c : Nat)
    (s_last : J) : Nat → J → Option Bool
  | 0, _ => none
  | fuel + 1, it =>
    if ndl.eq it s_last then some false
    else if p c (ndl.deref it) then some true
    else std_find_first_of_inner ndl p c s_last fuel (ndl.next it)

/-- The algorithm `std::find_first_of(first, last, s_first, s_last, p)`:
`for (; first != last; ++first) for (it = s_first; it != s_last; ++it)
if (p(*first, *it)) return first; return last;`. -/
def std_find_first_of {I J : Type} (hay : Iter I) (ndl : Iter J) (p : Nat → Nat → Bool)
    (last : I) (s_first s_last : J) (inner : Nat) : Nat → I → Option I
  | 0, _ => none
  | fuel + 1, first =>
    if hay.eq first last then some last
    else
      match std_find_first_of_inner ndl p (hay.deref first) s_last inner s_first with
      | none => none
      | some true => some first
      | some false => std_find_first_of hay ndl p last s_first s_last inner fuel (hay.next first)

/-- How the inner loop of `std::search` ends. -/
inductive SearchStep where
  | found : SearchStep
  | at_last : SearchStep
  | mismatch : SearchStep
deriving DecidableEq, Repr

/-- The inner loop of `std::search`:
`for (s_it = s_first; ; ++it, ++s_it) { if (s_it == s_last) return first;
if (it == last) return last; if (!p(*it, *s_it)) break; }`. -/
def std_search_inner {I J : Type} (hay : Iter I) (ndl : Iter J) (p : Nat → Nat → Bool)
    (last : I) (s_last : J) : Nat → I → J → Option SearchStep
  | 0, _, _ => none
  | fuel + 1, it, s_it =>
    if ndl.eq s_it s_last then some SearchStep.found
    else if hay.eq it last then some SearchStep.at_last
    else if !(p (hay.deref it) (ndl.deref s_it)) then some SearchStep.mismatch
    else std_search_inner hay ndl p last s_last fuel (hay.next it) (ndl.next s_it)

/-- The algorithm `std::search(first, last, s_first, s_last, p)`:
`while (true) { it = first; <inner loop>; ++first; }`. -/
def std_search {I J : Type} (hay : Iter I) (ndl : Iter J) (p : Nat → Nat → Bool)
    (last : I) (s_first s_last : J) (inner : Nat) : Nat → I → Option I
  | 0, _ => none
  | fuel + 1, first =>
    match std_search_inner hay ndl p last s_last inner first s_first with
    | none => none
    | some SearchStep.found => some first
    | some SearchStep.at_last => some last
    | some SearchStep.mismatch =>
      std_search hay ndl p last s_first s_last inner fuel (hay.next first)

/-! ## basic_string_view -/

/-- The member `begin()`: `const_iterator{this, 0u}`; `self` is the address of the view
(the constructor's `assert(view_)` holds, `this` is never null). -/
def basic_string_view.begin (self : Nat) : const_iterator := ⟨self, 0⟩

/-- The member `end()`: `const_iterator{this, size()}`. -/
def basic_string_view.end_ (vs : Views) (self : Nat) : const_iterator := ⟨self, (vs self).size_⟩

/-- The member `rbegin()`: `const_reverse_iterator{end()}`. -/
def basic_string_view.rbegin (vs : Views) (self : Nat) : reverse_iterator :=
  ⟨basic_string_view.end_ vs self⟩

/-- The member `rend()`: `const_reverse_iterator{begin()}`. -/
def basic_string_view.rend (self : Nat) : reverse_iterator :=
  ⟨basic_string_view.begin self⟩

/-- The member `operator[]`: `ptr_[i]`. -/
def basic_string_view.index (m : Mem) (self : basic_string_view) (i : Nat) : Nat :=
  m (self.ptr_ + i)

/-- The member `at(i)`: `if (i >= size_) throw std::out_of_range("at"); return ptr_[i];`. -/
def basic_string_view.at (m : Mem) (self : basic_string_view) (i : Nat) : Except Failure Nat :=
  if i ≥ self.size_ then Except.error Failure.out_of_range
  else Except.ok (m (self.ptr_ + i))

/-- The member `copy(dest, count, pos)`; the result is the returned count and the memory
after the call. -/
def basic_string_view.copy (m : Mem) (self : basic_string_view) (dest count pos : Nat) :
    Except Failure (Nat × Mem) :=
  if pos ≥ self.size_ then Except.error Failure.out_of_range
  else
    let n := min count (sz_sub self.size_ pos)
    Except.ok (n, traits_copy m dest (self.ptr_ + pos) n)

/-- The member `substr(pos, count)`:
`{ptr_ + pos, (size_ - pos) < count ? (size_ - pos) : count}`. -/
def basic_string_view.substr (self : basic_string_view) (pos count : Nat) : basic_string_view :=
  ⟨self.ptr_ + pos, if sz_sub self.size_ pos < count then sz_sub self.size_ pos else count⟩

/-- The member `compare(basic_string_view v)`.  The test `this == &v` implies the test on
`ptr_` and `size_` next to it, so the fast path is decided by the latter. -/
def basic_string_view.compare (m : Mem) (self v : basic_string_view) : Except Failure Int :=
  if self.ptr_ = 0 then Except.error Failure.assertion
  else if v.ptr_ = 0 then Except.error Failure.assertion
  else if self.ptr_ = v.ptr_ ∧ self.size_ = v.size_ then Except.ok 0
  else
    let result := traits_compare m self.ptr_ v.ptr_ (min self.size_ v.size_)
    if result < 0 then Except.ok (-1)
    else if result > 0 then Except.ok 1
    else if self.size_ < v.size_ then Except.ok (-1)
    else if self.size_ > v.size_ then Except.ok 1
    else Except.ok 0

/-- The non-member `operator==(a, b)`: `a.compare(b) == 0`. -/
def basic_string_view.op_eq (m : Mem) (a b : basic_string_view) : Except Failure Bool :=
  (basic_string_view.compare m a b).map (fun r => r == 0)

/-- The member `find(basic_string_view v, size_type pos)`; `self` and `v` are the addresses
of the haystack view and of the parameter object `v`. -/
def basic_string_view.find (fuel : Nat) (m : Mem) (vs : Views) (self v pos : Nat) : Option Nat :=
  (std_search (forward_iter vs m) (forward_iter vs m) traits_eq
      (basic_string_view.end_ vs self) (basic_string_view.begin v) (basic_string_view.end_ vs v)
      fuel fuel ((basic_string_view.begin self).plus vs pos)).map
    (fun i =>
      if i.eq (basic_string_view.end_ vs self) then npos
      else of_difference (i.difference (basic_string_view.begin self)))

/-- The member `find(CharT c, size_type pos)`:
`i = traits_type::find(ptr_ + pos, size_ - pos, c); return i ? (i - ptr_) : npos;`. -/
def basic_string_view.find_char (m : Mem) (self : basic_string_view) (c pos : Nat) : Nat :=
  match traits_find m (self.ptr_ + pos) (sz_sub self.size_ pos) c with
  | some i => (i - self.ptr_) % size_mod
  | none => npos

/-- The member `rfind(basic_string_view v, size_type pos)`. -/
def basic_string_view.rfind (fuel : Nat) (m : Mem) (vs : Views) (self v pos : Nat) : Option Nat :=
  let pos1 := if pos ≥ (vs self).size_ then 0 else sz_sub (vs self).size_ pos
  (std_search (reverse_iter vs m) (reverse_iter vs m) traits_eq
      (basic_string_view.rend self) (basic_string_view.rbegin vs v) (basic_string_view.rend v)
      fuel fuel ((basic_string_view.rbegin vs self).plus vs (to_difference pos1))).map
    (fun i =>
      if i.eq (basic_string_view.rend self) then npos
      else sz_sub (sz_sub (vs self).size_ (vs v).size_)
        (of_difference (reverse_iterator.distance (basic_string_view.rbegin vs self) i)))

/-- The member `find_first_of(basic_string_view v, size_type pos)`. -/
def basic_string_view.find_first_of (fuel : Nat) (m : Mem) (vs : Views) (self v pos : Nat) :
    Option Nat :=
  (std_find_first_of (forward_iter vs m) (forward_iter vs m) traits_eq
      (basic_string_view.end_ vs self) (basic_string_view.begin v) (basic_string_view.end_ vs v)
      fuel fuel ((basic_string_view.begin self).plus vs pos)).map
    (fun i =>
      if i.eq (basic_string_view.end_ vs self) then npos
      else of_difference (i.difference (basic_string_view.begin self)))

/-- The member `find_last_of(basic_string_view v, size_type pos)`. -/
def basic_string_view.find_last_of (fuel : Nat) (m : Mem) (vs : Views) (self v pos : Nat) :
    Option Nat :=
  let pos1 := if pos ≥ (vs self).size_ then 0 else sz_sub (vs self).size_ pos
  (std_find_first_of (reverse_iter vs m) (forward_iter vs m) traits_eq
      (basic_string_view.rend self) (basic_string_view.begin v) (basic_string_view.end_ vs v)
      fuel fuel ((basic_string_view.rbegin vs self).plus vs (to_difference pos1))).map
    (fun i =>
      if i.eq (basic_string_view.rend self) then npos
      else sz_sub (sz_sub (vs self).size_
        (of_difference (reverse_iterator.distance (basic_string_view.rbegin vs self) i))) 1)

/-- The member `find_first_not_of(basic_string_view v, size_type pos)`; the lambda holds its
own copy of `v` and calls `v.find(c) == npos`. -/
def basic_string_view.find_first_not_of (fuel : Nat) (m : Mem) (vs : Views) (self v pos : Nat) :
    Option Nat :=
  (std_find_if (forward_iter vs m) (fun c => basic_string_view.find_char m (vs v) c 0 == npos)
      (basic_string_view.end_ vs self) fuel ((basic_string_view.begin self).plus vs pos)).map
    (fun i =>
      if i.eq (basic_string_view.end_ vs self) then npos
      else of_difference (i.difference (basic_string_view.begin self)))

/-- The member `find_last_not_of(basic_string_view v, size_type pos)`; the lambda holds its
own copy of `v` and calls `v.find(c) == npos`. -/
def basic_string_view.find_last_not_of (fuel : Nat) (m : Mem) (vs : Views) (self v pos : Nat) :
    Option Nat :=
  let pos1 := if pos ≥ (vs self).size_ then 0 else sz_sub (vs self).size_ pos
  (std_find_if (reverse_iter vs m) (fun c => basic_string_view.find_char m (vs v) c 0 == npos)
      (basic_string_view.rend self) fuel
      ((basic_string_view.rbegin vs self).plus vs (to_difference pos1))).map
    (fun i =>
      if i.eq (basic_string_view.rend self) then npos
      else sz_sub (sz_sub (vs self).size_
        (of_difference (reverse_iterator.distance (basic_string_view.rbegin vs self) i))) 1)

/-- The default constructor `basic_string_view()`: the member initialisers `ptr_ = nullptr`
and `size_ = 0u`. -/
def basic_string_view.default_view : basic_string_view := ⟨0, 0⟩

/-- The member `remove_prefix(n)`: `ptr_ += n; size_ -= n;`.  The result is the view after
the call; the call has no access to the memory. -/
def basic_string_view.remove_prefix (self : basic_string_view) (n : Nat) : basic_string_view :=
  ⟨self.ptr_ + n, sz_sub self.size_ n⟩

/-- The member `remove_suffix(n)`: `size_ -= n;`.  The result is the view after the call;
the call has no access to the memory. -/
def basic_string_view.remove_suffix (self : basic_string_view) (n : Nat) : basic_string_view :=
  ⟨self.ptr_, sz_sub self.size_ n⟩

/-- The non-member `operator<(a, b)`: `a.compare(b) < 0`. -/
def basic_string_view.op_lt (m : Mem) (a b : basic_string_view) : Except Failure Bool :=
  (basic_string_view.compare m a b).map (fun r => decide (r < 0))

/-- Reading a range in order, `for (; first != last; ++first) out.push_back(*first);`: what
the iterator-range constructor of `std::basic_string` does, and what a loop that walks from
`first` by `++` until the iterator equals `last` dereferences. -/
def std_range_units {I : Type} (ops : Iter I) (last : I) : Nat → I → Option (List Nat)
  | 0, _ => none
  | fuel + 1, first =>
    if ops.eq first last then some []
    else (std_range_units ops last fuel (ops.next first)).map (fun l => ops.deref first :: l)

/-- The non-member `to_string(v)`: `std::basic_string<CharT, Traits>{v.begin(), v.end()}`;
`v` is the address of the parameter object. -/
def to_string (fuel : Nat) (m : Mem) (vs : Views) (v : Nat) : Option (List Nat) :=
  std_range_units (forward_iter vs m) (basic_string_view.end_ vs v) fuel
    (basic_string_view.begin v)

/-- The loop `for (iv = v.rbegin(); iv != v.rend(); ++iv) use(*iv);`: the units it
dereferences, in order, one per step. -/
def reverse_traversal (fuel : Nat) (m : Mem) (vs : Views) (self : Nat) : Option (List Nat) :=
  std_range_units (reverse_iter vs m) (basic_string_view.rend self) fuel
    (basic_string_view.rbegin vs self)

/-! ## Specification vocabulary -/

/-- The View invariant of the data model: the data pointer is null only when the count is 0. -/
def valid_view (v : basic_string_view) : Prop :=
  v.ptr_ = 0 → v.size_ = 0

/-- Iterators `pt 0 .. pt N` of a well-behaved range over the sequence `s`. -/
structure Walk {I : Type} (ops : Iter I) (pt : Nat → I) (N : Nat) (s : Nat → Nat) : Prop where
  next_pt : ∀ k, k < N → ops.next (pt k) = pt (k + 1)
  deref_pt : ∀ k, k < N → ops.deref (pt k) = s k
  eq_pt : ∀ j k, j ≤ N → k ≤ N → (ops.eq (pt j) (pt k) = true ↔ j = k)

/-- The index `q` is the least index in `[k, N)` that satisfies `P`, or `N` when there is none. -/
def FirstAt (P : Nat → Prop) (k N q : Nat) : Prop :=
  k ≤ q ∧ q ≤ N ∧ (q < N → P q) ∧ ∀ j, k ≤ j → j < q → ¬ P j

/-- From haystack index `k` and needle index `j` on, the rest of the needle fits and matches. -/
def MatchFrom (p : Nat → Nat → Bool) (s t : Nat → Nat) (N M k j : Nat) : Prop :=
  k + (M - j) ≤ N ∧ ∀ i, i < M - j → p (s (k + i)) (t (j + i)) = true

/-- The view `v` occurs in the view `h` at position `p`: it fits, and the units of `h` from
`p` on equal the units of `v`. -/
def occurs_at (m : Mem) (h v : basic_string_view) (p : Nat) : Prop :=
  p + v.size_ ≤ h.size_ ∧ ∀ j, j < v.size_ → m (h.ptr_ + (p + j)) = m (v.ptr_ + j)

/-- The unit `c` is one of the units of the view `v`. -/
def member_of (m : Mem) (v : basic_string_view) (c : Nat) : Prop :=
  ∃ i, i < v.size_ ∧ m (v.ptr_ + i) = c

/-- The views `a` and `b` have the same length and the same units at every index. -/
def same_units (m : Mem) (a b : basic_string_view) : Prop :=
  a.size_ = b.size_ ∧ ∀ i, i < a.size_ → m (a.ptr_ + i) = m (b.ptr_ + i)

/-- The unit sequence of `a` is lexicographically smaller than that of `b`: the first
differing unit is smaller, or `a` is a proper prefix of `b`. -/
def lex_less (m : Mem) (a b : basic_string_view) : Prop :=
  (∃ k, k < a.size_ ∧ k < b.size_ ∧ (∀ j, j < k → m (a.ptr_ + j) = m (b.ptr_ + j)) ∧
      m (a.ptr_ + k) < m (b.ptr_ + k)) ∨
    (a.size_ < b.size_ ∧ ∀ j, j < a.size_ → m (a.ptr_ + j) = m (b.ptr_ + j))

/-- Example memory: the units 1 2 3 1 2 at the addresses 100 .. 104, the units 1 2 at the
addresses 200 and 201, and 0 everywhere else. -/
def example_mem : Mem := fun a =>
  if a = 100 then 1 else if a = 101 then 2 else if a = 102 then 3 else if a = 103 then 1
  else if a = 104 then 2 else if a = 200 then 1 else if a = 201 then 2 else 0

/-- Example view objects: object 1 views the five units at 100, every other object the two
units at 200. -/
def example_views : Views := fun a => if a = 1 then ⟨100, 5⟩ else ⟨200, 2⟩

/-- Example view objects: two empty views. -/
def empty_views : Views := fun a => if a = 1 then ⟨100, 0⟩ else ⟨200, 0⟩

/-- Example view objects: object 1 views the five units at 100, every other object the one
unit at 200. -/
def single_views : Views := fun a => if a = 1 then ⟨100, 5⟩ else ⟨200, 1⟩

/-- Example view objects: object 1 views the five units at 100, every other object is an
empty view at 200. -/
def empty_needle_views : Views := fun a => if a = 1 then ⟨100, 5⟩ else ⟨200, 0⟩

/-- Occurrence at a position is decidable: finitely many units are compared. -/
instance occurs_at_decidable (m : Mem) (h v : basic_string_view) (p : Nat) :
    Decidable (occurs_at m h v p) :=
  inferInstanceAs
    (Decidable (p + v.size_ ≤ h.size_ ∧ ∀ j, j < v.size_ → m (h.ptr_ + (p + j)) = m (v.ptr_ + j)))

/-- Membership in a view is decidable: finitely many units are compared. -/
instance member_of_decidable (m : Mem) (v : basic_string_view) (c : Nat) :
    Decidable (member_of m v c) :=
  inferInstanceAs (Decidable (∃ i, i < v.size_ ∧ m (v.ptr_ + i) = c))

/-! ## Auxiliary lemmas -/

theorem sz_add_small (a b : Nat) (h : a + b < 2 ^ 64) : sz_add a b = a + b := by
  unfold sz_add size_mod; omega

theorem sz_sub_small (a b : Nat) (ha : a < 2 ^ 64) (h : b ≤ a) : sz_sub a b = a - b := by
  unfold sz_sub size_mod; omega

theorem of_to_difference (n : Nat) (h : n < 2 ^ 64) : of_difference (to_difference n) = n := by
  unfold of_difference to_difference size_mod
  split <;> omega

theorem FirstAt.unique {P : Nat → Prop} {k N q r : Nat} (hq : FirstAt P k N q)
    (hr : FirstAt P k N r) : q = r := by
  obtain ⟨h1, h2, h3, h4⟩ := hq
  obtain ⟨g1, g2, g3, g4⟩ := hr
  rcases Nat.lt_trichotomy q r with h | h | h
  · exact absurd (h3 (by omega)) (g4 q h1 h)
  · exact h
  · exact absurd (g3 (by omega)) (h4 r g1 h)

theorem std_find_if_walk {I : Type} {ops : Iter I} {pt : Nat → I} {N : Nat} {s : Nat → Nat}
    (w : Walk ops pt N s) (p : Nat → Bool) :
    ∀ (fuel k : Nat), k ≤ N → N - k < fuel →
      ∃ q, std_find_if ops p (pt N) fuel (pt k) = some (pt q) ∧
        FirstAt (fun j => p (s j) = true) k N q := by
  intro fuel
  induction fuel with
  | zero => intro k _ h; omega
  | succ fuel ih =>
    intro k hk hf
    unfold std_find_if
    by_cases hkN : k = N
    · subst hkN
      refine ⟨k, ?_, le_refl _, le_refl _, fun h => absurd h (lt_irrefl _), fun j h1 h2 => by omega⟩
      rw [if_pos ((w.eq_pt k k hk hk).2 rfl)]
    · have hlt : k < N := by omega
      have hne : ¬ (ops.eq (pt k) (pt N) = true) := fun h => hkN ((w.eq_pt k N hk (le_refl _)).1 h)
      rw [if_neg hne, w.deref_pt k hlt]
      by_cases hp : p (s k) = true
      · rw [if_pos hp]
        exact ⟨k, rfl, le_refl _, hk, fun _ => hp, fun j h1 h2 => by omega⟩
      · rw [if_neg hp, w.next_pt k hlt]
        obtain ⟨q, hq, h1, h2, h3, h4⟩ := ih (k + 1) hlt (by omega)
        refine ⟨q, hq, by omega, h2, h3, fun j hj1 hj2 => ?_⟩
        by_cases hjk : j = k
        · subst hjk; exact hp
        · exact h4 j (by omega) hj2

theorem std_find_first_of_inner_walk {J : Type} {ndl : Iter J} {pt : Nat → J} {M : Nat}
    {t : Nat → Nat} (w : Walk ndl pt M t) (p : Nat → Nat → Bool) (c : Nat) :
    ∀ (fuel j : Nat), j ≤ M → M - j < fuel →
      ∃ b, std_find_first_of_inner ndl p c (pt M) fuel (pt j) = some b ∧
        (b = true ↔ ∃ i, j ≤ i ∧ i < M ∧ p c (t i) = true) := by
  intro fuel
  induction fuel with
  | zero => intro j _ h; omega
  | succ fuel ih =>
    intro j hj hf
    unfold std_find_first_of_inner
    by_cases hjM : j = M
    · subst hjM
      refine ⟨false, ?_, ?_⟩
      · rw [if_pos ((w.eq_pt j j hj hj).2 rfl)]
      · simp only [Bool.false_eq_true, false_iff, not_exists]
        intro i hi; omega
    · have hlt : j < M := by omega
      have hne : ¬ (ndl.eq (pt j) (pt M) = true) := fun h => hjM ((w.eq_pt j M hj (le_refl _)).1 h)
      rw [if_neg hne, w.deref_pt j hlt]
      by_cases hp : p c (t j) = true
      · rw [if_pos hp]
        exact ⟨true, rfl, by simp only [true_iff]; exact ⟨j, le_refl _, hlt, hp⟩⟩
      · rw [if_neg hp, w.next_pt j hlt]
        obtain ⟨b, hb, hiff⟩ := ih (j + 1) hlt (by omega)
        refine ⟨b, hb, hiff.trans ⟨?_, ?_⟩⟩
        · rintro ⟨i, h1, h2, h3⟩
          exact ⟨i, by omega, h2, h3⟩
        · rintro ⟨i, h1, h2, h3⟩
          by_cases hij : i = j
          · subst hij; exact absurd h3 hp
          · exact ⟨i, by omega, h2, h3⟩

theorem std_find_first_of_walk {I J : Type} {hay : Iter I} {ndl : Iter J} {ptH : Nat → I}
    {ptN : Nat → J} {N M : Nat} {s t : Nat → Nat} (wh : Walk hay ptH N s)
    (wn : Walk ndl ptN M t) (p : Nat → Nat → Bool) (inner : Nat) (hin : M < inner) :
    ∀ (fuel k : Nat), k ≤ N → N - k < fuel →
      ∃ q, std_find_first_of hay ndl p (ptH N) (ptN 0) (ptN M) inner fuel (ptH k) = some (ptH q) ∧
        FirstAt (fun j => ∃ i, i < M ∧ p (s j) (t i) = true) k N q := by
  intro fuel
  induction fuel with
  | zero => intro k _ h; omega
  | succ fuel ih =>
    intro k hk hf
    unfold std_find_first_of
    by_cases hkN : k = N
    · subst hkN
      refine ⟨k, ?_, le_refl _, le_refl _, fun h => absurd h (lt_irrefl _), fun j h1 h2 => by omega⟩
      rw [if_pos ((wh.eq_pt k k hk hk).2 rfl)]
    · have hlt : k < N := by omega
      have hne : ¬ (hay.eq (ptH k) (ptH N) = true) :=
        fun h => hkN ((wh.eq_pt k N hk (le_refl _)).1 h)
      rw [if_neg hne, wh.deref_pt k hlt]
      obtain ⟨b, hb, hiff⟩ :=
        std_find_first_of_inner_walk wn p (s k) inner 0 (Nat.zero_le _) (by omega)
      rw [hb]
      cases b with
      | true =>
        obtain ⟨i, _, h2, h3⟩ := hiff.1 rfl
        exact ⟨k, rfl, le_refl _, hk, fun _ => ⟨i, h2, h3⟩, fun j h1 h2 => by omega⟩
      | false =>
        have hno : ¬ ∃ i, i < M ∧ p (s k) (t i) = true := by
          rintro ⟨i, h2, h3⟩
          have := hiff.2 ⟨i, Nat.zero_le _, h2, h3⟩
          exact Bool.false_ne_true this
        simp only
        rw [wh.next_pt k hlt]
        obtain ⟨q, hq, h1, h2, h3, h4⟩ := ih (k + 1) hlt (by omega)
        refine ⟨q, hq, by omega, h2, h3, fun j hj1 hj2 => ?_⟩
        by_cases hjk : j = k
        · subst hjk; exact hno
        · exact h4 j (by omega) hj2

theorem std_search_inner_walk {I J : Type} {hay : Iter I} {ndl : Iter J} {ptH : Nat → I}
    {ptN : Nat → J} {N M : Nat} {s t : Nat → Nat} (wh : Walk hay ptH N s)
    (wn : Walk ndl ptN M t) (p : Nat → Nat → Bool) :
    ∀ (fuel k j : Nat), k ≤ N → j ≤ M → M - j < fuel →
      ∃ r, std_search_inner hay ndl p (ptH N) (ptN M) fuel (ptH k) (ptN j) = some r ∧
        (r = SearchStep.found → MatchFrom p s t N M k j) ∧
        (r = SearchStep.at_last → N < k + (M - j)) ∧
        (r = SearchStep.mismatch → k < N ∧ ¬ MatchFrom p s t N M k j) := by
  intro fuel
  induction fuel with
  | zero => intro k j _ _ h; omega
  | succ fuel ih =>
    intro k j hk hj hf
    unfold std_search_inner
    by_cases hjM : j = M
    · subst hjM
      refine ⟨SearchStep.found, ?_, ?_, ?_, ?_⟩
      · rw [if_pos ((wn.eq_pt j j hj hj).2 rfl)]
      · intro _; exact ⟨by omega, fun i hi => by omega⟩
      · intro h; cases h
      · intro h; cases h
    · have hlt : j < M := by omega
      have hne : ¬ (ndl.eq (ptN j) (ptN M) = true) :=
        fun h => hjM ((wn.eq_pt j M hj (le_refl _)).1 h)
      rw [if_neg hne]
      by_cases hkN : k = N
      · subst hkN
        refine ⟨SearchStep.at_last, ?_, ?_, ?_, ?_⟩
        · rw [if_pos ((wh.eq_pt k k hk hk).2 rfl)]
        · intro h; cases h
        · intro _; omega
        · intro h; cases h
      · have hltk : k < N := by omega
        have hnek : ¬ (hay.eq (ptH k) (ptH N) = true) :=
          fun h => hkN ((wh.eq_pt k N hk (le_refl _)).1 h)
        rw [if_neg hnek, wh.deref_pt k hltk, wn.deref_pt j hlt]
        by_cases hp : p (s k) (t j) = true
        · have hnp : ¬ ((!p (s k) (t j)) = true) := by simp [hp]
          rw [if_neg hnp, wh.next_pt k hltk, wn.next_pt j hlt]
          obtain ⟨r, hr, h1, h2, h3⟩ := ih (k + 1) (j + 1) hltk hlt (by omega)
          refine ⟨r, hr, ?_, ?_, ?_⟩
          · intro hf1
            obtain ⟨g1, g2⟩ := h1 hf1
            refine ⟨by omega, fun i hi => ?_⟩
            cases i with
            | zero => simpa using hp
            | succ i =>
              have := g2 i (by omega)
              have e1 : k + (i + 1) = k + 1 + i := by omega
              have e2 : j + (i + 1) = j + 1 + i := by omega
              rw [e1, e2]; exact this
          · intro hf1; have := h2 hf1; omega
          · intro hf1
            obtain ⟨g1, g2⟩ := h3 hf1
            refine ⟨hltk, fun hm => g2 ⟨by have := hm.1; omega, fun i hi => ?_⟩⟩
            have := hm.2 (i + 1) (by omega)
            have e1 : k + (i + 1) = k + 1 + i := by omega
            have e2 : j + (i + 1) = j + 1 + i := by omega
            rw [e1, e2] at this; exact this
        · have hnp : (!p (s k) (t j)) = true := by simp [hp]
          rw [if_pos hnp]
          refine ⟨SearchStep.mismatch, rfl, ?_, ?_, ?_⟩
          · intro h; cases h
          · intro h; cases h
          · intro _
            refine ⟨hltk, fun hm => hp ?_⟩
            have := hm.2 0 (by omega)
            simpa using this

theorem std_search_walk {I J : Type} {hay : Iter I} {ndl : Iter J} {ptH : Nat → I}
    {ptN : Nat → J} {N M : Nat} {s t : Nat → Nat} (wh : Walk hay ptH N s)
    (wn : Walk ndl ptN M t) (p : Nat → Nat → Bool) (inner : Nat) (hin : M < inner) :
    ∀ (fuel k : Nat), k ≤ N → N - k < fuel →
      ∃ q, std_search hay ndl p (ptH N) (ptN 0) (ptN M) inner fuel (ptH k) = some (ptH q) ∧
        FirstAt (fun j => MatchFrom p s t N M j 0) k N q := by
  intro fuel
  induction fuel with
  | zero => intro k _ h; omega
  | succ fuel ih =>
    intro k hk hf
    unfold std_search
    obtain ⟨r, hr, h1, h2, h3⟩ :=
      std_search_inner_walk wh wn p inner k 0 hk (Nat.zero_le _) (by omega)
    rw [hr]
    cases r with
    | found =>
      exact ⟨k, rfl, le_refl _, hk, fun _ => h1 rfl, fun j g1 g2 => by omega⟩
    | at_last =>
      have hlt := h2 rfl
      refine ⟨N, rfl, hk, le_refl _, fun h => absurd h (lt_irrefl _), fun j g1 g2 hm => ?_⟩
      have := hm.1
      omega
    | mismatch =>
      obtain ⟨hltk, hno⟩ := h3 rfl
      simp only
      rw [wh.next_pt k hltk]
      obtain ⟨q, hq, g1, g2, g3, g4⟩ := ih (k + 1) hltk (by omega)
      refine ⟨q, hq, by omega, g2, g3, fun j hj1 hj2 => ?_⟩
      by_cases hjk : j = k
      · subst hjk; exact hno
      · exact g4 j (by omega) hj2


theorem forward_walk (vs : Views) (m : Mem) (self : Nat) (h : (vs self).size_ < 2 ^ 64) :
    Walk (forward_iter vs m) (fun k => (⟨self, k⟩ : const_iterator)) (vs self).size_
      (fun k => m ((vs self).ptr_ + k)) := by
  refine ⟨fun k hk => ?_, fun k _ => rfl, fun j k _ _ => ?_⟩
  · show const_iterator.pre_increment vs ⟨self, k⟩ = ⟨self, k + 1⟩
    unfold const_iterator.pre_increment
    simp only [hk, if_true]
    rw [sz_add_small k 1 (by omega)]
  · show const_iterator.eq ⟨self, j⟩ ⟨self, k⟩ = true ↔ j = k
    simp [const_iterator.eq]

theorem reverse_walk (vs : Views) (m : Mem) (self : Nat) (h : (vs self).size_ < 2 ^ 64) :
    Walk (reverse_iter vs m)
      (fun k => (⟨⟨self, (vs self).size_ - k⟩⟩ : reverse_iterator)) (vs self).size_
      (fun k => m ((vs self).ptr_ + ((vs self).size_ - 1 - k))) := by
  have hdec : ∀ k, k < (vs self).size_ →
      const_iterator.pre_decrement ⟨self, (vs self).size_ - k⟩
        = ⟨self, (vs self).size_ - (k + 1)⟩ := by
    intro k hk
    unfold const_iterator.pre_decrement
    have hpos : (vs self).size_ - k > 0 := by omega
    simp only [hpos, if_true]
    rw [sz_sub_small _ 1 (by omega) (by omega)]
    rfl
  refine ⟨fun k hk => ?_, fun k hk => ?_, fun j k hj hk => ?_⟩
  · show reverse_iterator.pre_increment ⟨⟨self, (vs self).size_ - k⟩⟩ = _
    unfold reverse_iterator.pre_increment
    simp only [hdec k hk]
  · show reverse_iterator.deref vs m ⟨⟨self, (vs self).size_ - k⟩⟩ = _
    unfold reverse_iterator.deref
    simp only [hdec k hk]
    unfold const_iterator.deref
    simp only
    congr 2
    omega
  · show reverse_iterator.eq ⟨⟨self, _⟩⟩ ⟨⟨self, _⟩⟩ = true ↔ j = k
    simp only [reverse_iterator.eq, const_iterator.eq, beq_self_eq_true, Bool.true_and,
      beq_iff_eq]
    omega

theorem begin_plus (vs : Views) (self pos : Nat) (hpos : pos < 2 ^ 64) :
    (basic_string_view.begin self).plus vs pos = ⟨self, min (vs self).size_ pos⟩ := by
  unfold basic_string_view.begin const_iterator.plus const_iterator.add_assign
  simp only
  rw [sz_add_small 0 pos (by omega)]
  simp

theorem rbegin_plus (vs : Views) (self k : Nat) (h : (vs self).size_ < 2 ^ 64)
    (hk : k ≤ (vs self).size_) :
    (basic_string_view.rbegin vs self).plus vs (to_difference k)
      = ⟨⟨self, (vs self).size_ - k⟩⟩ := by
  unfold basic_string_view.rbegin basic_string_view.end_ reverse_iterator.plus
    const_iterator.minus const_iterator.sub_assign
  simp only
  rw [of_to_difference k (by omega), sz_sub_small _ k h hk]
  have : ¬ ((vs self).size_ - k > (vs self).size_) := by omega
  simp only [this, if_false]

theorem forward_index (self q : Nat) (hq : q < 2 ^ 64) :
    of_difference ((⟨self, q⟩ : const_iterator).difference (basic_string_view.begin self)) = q := by
  unfold const_iterator.difference basic_string_view.begin
  simp only
  rw [of_to_difference q hq, sz_sub_small q 0 hq (Nat.zero_le _), Nat.sub_zero,
    of_to_difference q hq]

theorem reverse_index (vs : Views) (self q : Nat) (h : (vs self).size_ < 2 ^ 64)
    (hq : q ≤ (vs self).size_) :
    of_difference (reverse_iterator.distance (basic_string_view.rbegin vs self)
      ⟨⟨self, (vs self).size_ - q⟩⟩) = q := by
  unfold reverse_iterator.distance reverse_iterator.difference const_iterator.difference
    basic_string_view.rbegin basic_string_view.end_
  simp only
  rw [of_to_difference _ h, sz_sub_small _ _ h (by omega)]
  have : (vs self).size_ - ((vs self).size_ - q) = q := by omega
  rw [this, of_to_difference q (by omega)]

theorem matchFrom_forward (m : Mem) (h v : basic_string_view) (q : Nat) :
    MatchFrom traits_eq (fun k => m (h.ptr_ + k)) (fun k => m (v.ptr_ + k)) h.size_ v.size_ q 0
      ↔ occurs_at m h v q := by
  unfold MatchFrom occurs_at traits_eq
  simp only [Nat.sub_zero, Nat.zero_add, beq_iff_eq]

theorem matchFrom_reverse (m : Mem) (h v : basic_string_view) (q : Nat) :
    MatchFrom traits_eq (fun k => m (h.ptr_ + (h.size_ - 1 - k)))
        (fun k => m (v.ptr_ + (v.size_ - 1 - k))) h.size_ v.size_ q 0
      ↔ (q + v.size_ ≤ h.size_ ∧ occurs_at m h v (h.size_ - v.size_ - q)) := by
  unfold MatchFrom occurs_at traits_eq
  simp only [Nat.sub_zero, Nat.zero_add, beq_iff_eq]
  constructor
  · rintro ⟨h1, h2⟩
    refine ⟨h1, by omega, fun j hj => ?_⟩
    have := h2 (v.size_ - 1 - j) (by omega)
    have e1 : h.size_ - 1 - (q + (v.size_ - 1 - j)) = h.size_ - v.size_ - q + j := by omega
    have e2 : v.size_ - 1 - (v.size_ - 1 - j) = j := by omega
    rw [e1, e2] at this
    exact this
  · rintro ⟨h1, _, h2⟩
    refine ⟨h1, fun i hi => ?_⟩
    have := h2 (v.size_ - 1 - i) (by omega)
    have e1 : h.size_ - v.size_ - q + (v.size_ - 1 - i) = h.size_ - 1 - (q + i) := by omega
    rw [e1] at this
    exact this

/-- What `find` computes: the least occurrence at or after `min size pos`, the sentinel when
the search ends at `end()`. -/
theorem find_spec (fuel : Nat) (m : Mem) (vs : Views) (self v pos : Nat)
    (hN : (vs self).size_ < 2 ^ 64) (hM : (vs v).size_ < 2 ^ 64) (hpos : pos < 2 ^ 64)
    (hfuel : (vs self).size_ + (vs v).size_ < fuel) :
    ∃ q, basic_string_view.find fuel m vs self v pos
          = some (if q = (vs self).size_ then npos else q) ∧
      FirstAt (occurs_at m (vs self) (vs v)) (min (vs self).size_ pos) (vs self).size_ q := by
  obtain ⟨q, hq, hfirst⟩ := std_search_walk (forward_walk vs m self hN) (forward_walk vs m v hM)
    traits_eq fuel (by omega) fuel (min (vs self).size_ pos) (Nat.min_le_left _ _) (by omega)
  refine ⟨q, ?_, ?_⟩
  · unfold basic_string_view.find
    rw [begin_plus vs self pos hpos]
    unfold basic_string_view.end_ basic_string_view.begin at *
    rw [hq]
    simp only [Option.map_some', const_iterator.eq, beq_self_eq_true, Bool.true_and, beq_iff_eq]
    by_cases hqN : q = (vs self).size_
    · rw [if_pos hqN, if_pos hqN]
    · rw [if_neg hqN, if_neg hqN]
      exact congrArg some (forward_index self q (by have := hfirst.2.1; omega))
  · obtain ⟨h1, h2, h3, h4⟩ := hfirst
    exact ⟨h1, h2, fun h => (matchFrom_forward m _ _ q).1 (h3 h),
      fun j g1 g2 g3 => h4 j g1 g2 ((matchFrom_forward m _ _ j).2 g3)⟩

/-- The offset from the end that the backward searches compute from `pos`. -/
theorem offset_from_end (N pos : Nat) (hN : N < 2 ^ 64) :
    (if pos ≥ N then 0 else sz_sub N pos) = N - min pos N := by
  by_cases h : pos ≥ N
  · rw [if_pos h]; omega
  · rw [if_neg h, sz_sub_small N pos hN (by omega)]; omega

/-- What `rfind` computes, in terms of the index `q` counted from the end. -/
theorem rfind_spec (fuel : Nat) (m : Mem) (vs : Views) (self v pos : Nat)
    (hN : (vs self).size_ < 2 ^ 64) (hM : (vs v).size_ < 2 ^ 64)
    (hfuel : (vs self).size_ + (vs v).size_ < fuel) :
    ∃ q, basic_string_view.rfind fuel m vs self v pos
          = some (if q = (vs self).size_ then npos else (vs self).size_ - (vs v).size_ - q) ∧
      FirstAt (fun j => j + (vs v).size_ ≤ (vs self).size_ ∧
          occurs_at m (vs self) (vs v) ((vs self).size_ - (vs v).size_ - j))
        ((vs self).size_ - min pos (vs self).size_) (vs self).size_ q := by
  obtain ⟨q, hq, hfirst⟩ := std_search_walk (reverse_walk vs m self hN) (reverse_walk vs m v hM)
    traits_eq fuel (by omega) fuel ((vs self).size_ - min pos (vs self).size_)
    (Nat.sub_le _ _) (by omega)
  have hfirst2 : FirstAt (fun j => j + (vs v).size_ ≤ (vs self).size_ ∧
      occurs_at m (vs self) (vs v) ((vs self).size_ - (vs v).size_ - j))
      ((vs self).size_ - min pos (vs self).size_) (vs self).size_ q := by
    obtain ⟨h1, h2, h3, h4⟩ := hfirst
    exact ⟨h1, h2, fun h => (matchFrom_reverse m _ _ q).1 (h3 h),
      fun j g1 g2 g3 => h4 j g1 g2 ((matchFrom_reverse m _ _ j).2 g3)⟩
  refine ⟨q, ?_, hfirst2⟩
  have hqN : q ≤ (vs self).size_ := hfirst.2.1
  unfold basic_string_view.rfind
  simp only
  rw [offset_from_end _ pos hN, rbegin_plus vs self _ hN (Nat.sub_le _ _)]
  have hq2 : std_search (reverse_iter vs m) (reverse_iter vs m) traits_eq
      (basic_string_view.rend self) (basic_string_view.rbegin vs v) (basic_string_view.rend v)
      fuel fuel ⟨⟨self, (vs self).size_ - ((vs self).size_ - min pos (vs self).size_)⟩⟩
      = some ⟨⟨self, (vs self).size_ - q⟩⟩ := by
    simp only [Nat.sub_zero, Nat.sub_self] at hq
    exact hq
  rw [hq2]
  simp only [Option.map_some', reverse_iterator.eq, const_iterator.eq, basic_string_view.rend,
    basic_string_view.begin, beq_self_eq_true, Bool.true_and, beq_iff_eq]
  by_cases hqe : q = (vs self).size_
  · have : (vs self).size_ - q = 0 := by omega
    rw [if_pos this, if_pos hqe]
  · have : ¬ ((vs self).size_ - q = 0) := by omega
    rw [if_neg this, if_neg hqe, reverse_index vs self q hN hqN]
    have hfit := (hfirst2.2.2.1 (by omega)).1
    rw [sz_sub_small _ _ hN (by omega), sz_sub_small _ q (by omega) (by omega)]

theorem member_of_iff (m : Mem) (v : basic_string_view) (c : Nat) :
    (∃ i, i < v.size_ ∧ traits_eq c (m (v.ptr_ + i)) = true) ↔ member_of m v c := by
  unfold member_of traits_eq
  simp only [beq_iff_eq]
  exact ⟨fun ⟨i, h1, h2⟩ => ⟨i, h1, h2.symm⟩, fun ⟨i, h1, h2⟩ => ⟨i, h1, h2.symm⟩⟩

/-- What `find_first_of` computes. -/
theorem find_first_of_spec (fuel : Nat) (m : Mem) (vs : Views) (self v pos : Nat)
    (hN : (vs self).size_ < 2 ^ 64) (hM : (vs v).size_ < 2 ^ 64) (hpos : pos < 2 ^ 64)
    (hfuel : (vs self).size_ + (vs v).size_ < fuel) :
    ∃ q, basic_string_view.find_first_of fuel m vs self v pos
          = some (if q = (vs self).size_ then npos else q) ∧
      FirstAt (fun j => member_of m (vs v) (m ((vs self).ptr_ + j)))
        (min (vs self).size_ pos) (vs self).size_ q := by
  obtain ⟨q, hq, hfirst⟩ := std_find_first_of_walk (forward_walk vs m self hN)
    (forward_walk vs m v hM) traits_eq fuel (by omega) fuel (min (vs self).size_ pos)
    (Nat.min_le_left _ _) (by omega)
  refine ⟨q, ?_, ?_⟩
  · unfold basic_string_view.find_first_of
    rw [begin_plus vs self pos hpos]
    unfold basic_string_view.end_ basic_string_view.begin at *
    rw [hq]
    simp only [Option.map_some', const_iterator.eq, beq_self_eq_true, Bool.true_and, beq_iff_eq]
    by_cases hqN : q = (vs self).size_
    · rw [if_pos hqN, if_pos hqN]
    · rw [if_neg hqN, if_neg hqN]
      exact congrArg some (forward_index self q (by have := hfirst.2.1; omega))
  · obtain ⟨h1, h2, h3, h4⟩ := hfirst
    exact ⟨h1, h2, fun h => (member_of_iff m _ _).1 (h3 h),
      fun j g1 g2 g3 => h4 j g1 g2 ((member_of_iff m _ _).2 g3)⟩

/-- What `find_last_of` computes, in terms of the index `q` counted from the end. -/
theorem find_last_of_spec (fuel : Nat) (m : Mem) (vs : Views) (self v pos : Nat)
    (hN : (vs self).size_ < 2 ^ 64) (hM : (vs v).size_ < 2 ^ 64)
    (hfuel : (vs self).size_ + (vs v).size_ < fuel) :
    ∃ q, basic_string_view.find_last_of fuel m vs self v pos
          = some (if q = (vs self).size_ then npos else (vs self).size_ - q - 1) ∧
      FirstAt (fun j => member_of m (vs v) (m ((vs self).ptr_ + ((vs self).size_ - 1 - j))))
        ((vs self).size_ - min pos (vs self).size_) (vs self).size_ q := by
  obtain ⟨q, hq, hfirst⟩ := std_find_first_of_walk (reverse_walk vs m self hN)
    (forward_walk vs m v hM) traits_eq fuel (by omega) fuel
    ((vs self).size_ - min pos (vs self).size_) (Nat.sub_le _ _) (by omega)
  have hqN : q ≤ (vs self).size_ := hfirst.2.1
  refine ⟨q, ?_, ?_⟩
  · unfold basic_string_view.find_last_of
    simp only
    rw [offset_from_end _ pos hN, rbegin_plus vs self _ hN (Nat.sub_le _ _)]
    have hq2 : std_find_first_of (reverse_iter vs m) (forward_iter vs m) traits_eq
        (basic_string_view.rend self) (basic_string_view.begin v) (basic_string_view.end_ vs v)
        fuel fuel ⟨⟨self, (vs self).size_ - ((vs self).size_ - min pos (vs self).size_)⟩⟩
        = some ⟨⟨self, (vs self).size_ - q⟩⟩ := by
      simp only [Nat.sub_zero, Nat.sub_self] at hq
      exact hq
    rw [hq2]
    simp only [Option.map_some', reverse_iterator.eq, const_iterator.eq, basic_string_view.rend,
      basic_string_view.begin, beq_self_eq_true, Bool.true_and, beq_iff_eq]
    by_cases hqe : q = (vs self).size_
    · have : (vs self).size_ - q = 0 := by omega
      rw [if_pos this, if_pos hqe]
    · have : ¬ ((vs self).size_ - q = 0) := by omega
      rw [if_neg this, if_neg hqe, reverse_index vs self q hN hqN]
      rw [sz_sub_small _ q hN hqN, sz_sub_small _ 1 (by omega) (by omega)]
  · obtain ⟨h1, h2, h3, h4⟩ := hfirst
    exact ⟨h1, h2, fun h => (member_of_iff m _ _).1 (h3 h),
      fun j g1 g2 g3 => h4 j g1 g2 ((member_of_iff m _ _).2 g3)⟩

theorem traits_find_none (m : Mem) (c : Nat) :
    ∀ (n p : Nat), traits_find m p n c = none ↔ ∀ i, i < n → m (p + i) ≠ c := by
  intro n
  induction n with
  | zero => intro p; simp [traits_find]
  | succ n ih =>
    intro p
    unfold traits_find
    by_cases hc : m p = c
    · simp only [traits_eq, hc, beq_self_eq_true, if_true]
      constructor
      · intro h; cases h
      · intro h; exact absurd hc (h 0 (by omega))
    · have : ¬ (traits_eq (m p) c = true) := by simpa [traits_eq] using hc
      rw [if_neg this, ih (p + 1)]
      constructor
      · intro h i hi
        cases i with
        | zero => exact hc
        | succ i =>
          have := h i (by omega)
          have e : p + (i + 1) = p + 1 + i := by omega
          rw [e]; exact this
      · intro h i hi
        have := h (i + 1) (by omega)
        have e : p + (i + 1) = p + 1 + i := by omega
        rw [e] at this; exact this

theorem traits_find_some (m : Mem) (c : Nat) :
    ∀ (n p a : Nat), traits_find m p n c = some a →
      ∃ i, i < n ∧ a = p + i ∧ m (p + i) = c ∧ ∀ j, j < i → m (p + j) ≠ c := by
  intro n
  induction n with
  | zero => intro p a h; simp [traits_find] at h
  | succ n ih =>
    intro p a h
    unfold traits_find at h
    by_cases hc : m p = c
    · simp only [traits_eq, hc, beq_self_eq_true, if_true, Option.some.injEq] at h
      exact ⟨0, by omega, by omega, hc, fun j hj => by omega⟩
    · have hn : ¬ (traits_eq (m p) c = true) := by simpa [traits_eq] using hc
      rw [if_neg hn] at h
      obtain ⟨i, h1, h2, h3, h4⟩ := ih (p + 1) a h
      refine ⟨i + 1, by omega, by omega, ?_, fun j hj => ?_⟩
      · have e : p + (i + 1) = p + 1 + i := by omega
        rw [e]; exact h3
      · cases j with
        | zero => exact hc
        | succ j =>
          have := h4 j (by omega)
          have e : p + (j + 1) = p + 1 + j := by omega
          rw [e]; exact this

theorem npos_eq : npos = 18446744073709551615 := by
  rfl

theorem size_mod_eq : size_mod = 18446744073709551616 := by
  rfl

/-- The lambda of `find_first_not_of`: `v.find(c) == npos` holds exactly when `c` is no unit of `v`. -/
theorem find_char_eq_npos (m : Mem) (v : basic_string_view) (c : Nat) (hM : v.size_ < 2 ^ 64) :
    (basic_string_view.find_char m v c 0 == npos) = true ↔ ¬ member_of m v c := by
  rw [basic_string_view.find_char, sz_sub_small _ 0 hM (Nat.zero_le _), Nat.sub_zero, beq_iff_eq,
    Nat.add_zero]
  cases hfind : traits_find m v.ptr_ v.size_ c with
  | none =>
    have hnone := (traits_find_none m c v.size_ v.ptr_).1 hfind
    refine ⟨fun _ => ?_, fun _ => rfl⟩
    rintro ⟨i, h1, h2⟩
    exact hnone i h1 h2
  | some a =>
    obtain ⟨i, h1, h2, h3, _⟩ := traits_find_some m c v.size_ v.ptr_ a hfind
    have hval : (a - v.ptr_) % size_mod = i := by
      rw [h2, Nat.add_sub_cancel_left, size_mod_eq]
      exact Nat.mod_eq_of_lt (by omega)
    have hne : i ≠ npos := by rw [npos_eq]; omega
    show (a - v.ptr_) % size_mod = npos ↔ _
    rw [hval]
    exact ⟨fun h => absurd h hne, fun h => absurd ⟨i, h1, h3⟩ h⟩

/-- What `find_first_not_of` computes. -/
theorem find_first_not_of_spec (fuel : Nat) (m : Mem) (vs : Views) (self v pos : Nat)
    (hN : (vs self).size_ < 2 ^ 64) (hM : (vs v).size_ < 2 ^ 64) (hpos : pos < 2 ^ 64)
    (hfuel : (vs self).size_ < fuel) :
    ∃ q, basic_string_view.find_first_not_of fuel m vs self v pos
          = some (if q = (vs self).size_ then npos else q) ∧
      FirstAt (fun j => ¬ member_of m (vs v) (m ((vs self).ptr_ + j)))
        (min (vs self).size_ pos) (vs self).size_ q := by
  obtain ⟨q, hq, hfirst⟩ := std_find_if_walk (forward_walk vs m self hN)
    (fun c => basic_string_view.find_char m (vs v) c 0 == npos) fuel (min (vs self).size_ pos)
    (Nat.min_le_left _ _) (by omega)
  refine ⟨q, ?_, ?_⟩
  · unfold basic_string_view.find_first_not_of
    rw [begin_plus vs self pos hpos]
    unfold basic_string_view.end_ basic_string_view.begin at *
    rw [hq]
    simp only [Option.map_some', const_iterator.eq, beq_self_eq_true, Bool.true_and, beq_iff_eq]
    by_cases hqN : q = (vs self).size_
    · rw [if_pos hqN, if_pos hqN]
    · rw [if_neg hqN, if_neg hqN]
      exact congrArg some (forward_index self q (by have := hfirst.2.1; omega))
  · obtain ⟨h1, h2, h3, h4⟩ := hfirst
    exact ⟨h1, h2, fun h => (find_char_eq_npos m _ _ hM).1 (h3 h),
      fun j g1 g2 g3 => h4 j g1 g2 ((find_char_eq_npos m _ _ hM).2 g3)⟩

/-! ## The claims -/

theorem traits_compare_spec (m : Mem) :
    ∀ (n s1 s2 : Nat),
      (traits_compare m s1 s2 n = 0 ∧ ∀ i, i < n → m (s1 + i) = m (s2 + i)) ∨
      (traits_compare m s1 s2 n = -1 ∧ ∃ k, k < n ∧ (∀ j, j < k → m (s1 + j) = m (s2 + j)) ∧
        m (s1 + k) < m (s2 + k)) ∨
      (traits_compare m s1 s2 n = 1 ∧ ∃ k, k < n ∧ (∀ j, j < k → m (s1 + j) = m (s2 + j)) ∧
        m (s2 + k) < m (s1 + k)) := by
  intro n
  induction n with
  | zero =>
    intro s1 s2
    left
    exact ⟨by rw [traits_compare], fun i hi => by omega⟩
  | succ n ih =>
    intro s1 s2
    rw [traits_compare]
    by_cases h1 : m s1 < m s2
    · right; left
      rw [if_pos h1]
      exact ⟨rfl, 0, by omega, fun j hj => by omega, by simpa using h1⟩
    · rw [if_neg h1]
      by_cases h2 : m s2 < m s1
      · right; right
        rw [if_pos h2]
        exact ⟨rfl, 0, by omega, fun j hj => by omega, by simpa using h2⟩
      · rw [if_neg h2]
        have heq : m s1 = m s2 := by omega
        have shift : ∀ (s i : Nat), s + 1 + i = s + (i + 1) := fun s i => by omega
        rcases ih (s1 + 1) (s2 + 1) with ⟨e, h⟩ | ⟨e, k, hk, hpre, hlt⟩ | ⟨e, k, hk, hpre, hlt⟩
        · left
          refine ⟨e, fun i hi => ?_⟩
          cases i with
          | zero => simpa using heq
          | succ i =>
            have := h i (by omega)
            rw [shift, shift] at this; exact this
        · right; left
          refine ⟨e, k + 1, by omega, fun j hj => ?_, ?_⟩
          · cases j with
            | zero => simpa using heq
            | succ j =>
              have := hpre j (by omega)
              rw [shift, shift] at this; exact this
          · rw [shift, shift] at hlt; exact hlt
        · right; right
          refine ⟨e, k + 1, by omega, fun j hj => ?_, ?_⟩
          · cases j with
            | zero => simpa using heq
            | succ j =>
              have := hpre j (by omega)
              rw [shift, shift] at this; exact this
          · rw [shift, shift] at hlt; exact hlt

theorem lex_less_asymm (m : Mem) (a b : basic_string_view) (h1 : lex_less m a b)
    (h2 : lex_less m b a) : False := by
  rcases h1 with ⟨k, ka, kb, hpre, hlt⟩ | ⟨hsz, hpre⟩
  · rcases h2 with ⟨l, lb, la, gpre, glt⟩ | ⟨gsz, gpre⟩
    · rcases Nat.lt_trichotomy k l with h | h | h
      · have := gpre k h; omega
      · subst h; omega
      · have := hpre l h; omega
    · have := gpre k kb; omega
  · rcases h2 with ⟨l, lb, la, gpre, glt⟩ | ⟨gsz, gpre⟩
    · have := hpre l la; omega
    · omega

theorem lex_less_not_same (m : Mem) (a b : basic_string_view) (h1 : lex_less m a b)
    (h2 : same_units m a b) : False := by
  obtain ⟨hsz, hall⟩ := h2
  rcases h1 with ⟨k, ka, kb, hpre, hlt⟩ | ⟨gsz, gpre⟩
  · have := hall k ka; omega
  · omega

theorem same_units_symm (m : Mem) (a b : basic_string_view) (h : same_units m a b) :
    same_units m b a :=
  ⟨h.1.symm, fun i hi => (h.2 i (by rw [h.1]; exact hi)).symm⟩

/-- The result of `compare` on two views over non-null buffers, case by case. -/
theorem compare_cases (m : Mem) (a b : basic_string_view) (ha : a.ptr_ ≠ 0) (hb : b.ptr_ ≠ 0) :
    (basic_string_view.compare m a b = Except.ok (-1) ∧ lex_less m a b) ∨
    (basic_string_view.compare m a b = Except.ok 1 ∧ lex_less m b a) ∨
    (basic_string_view.compare m a b = Except.ok 0 ∧ same_units m a b) := by
  rw [basic_string_view.compare, if_neg ha, if_neg hb]
  by_cases hfast : a.ptr_ = b.ptr_ ∧ a.size_ = b.size_
  · rw [if_pos hfast]
    right; right
    exact ⟨rfl, hfast.2, fun i _ => by rw [hfast.1]⟩
  · rw [if_neg hfast]
    simp only
    rcases traits_compare_spec m (min a.size_ b.size_) a.ptr_ b.ptr_ with
      ⟨e, h⟩ | ⟨e, k, hk, hpre, hlt⟩ | ⟨e, k, hk, hpre, hlt⟩
    · rw [e]
      simp only [lt_self_iff_false, if_false, gt_iff_lt]
      by_cases h1 : a.size_ < b.size_
      · rw [if_pos h1]
        left
        exact ⟨rfl, Or.inr ⟨h1, fun j hj => h j (by omega)⟩⟩
      · rw [if_neg h1]
        by_cases h2 : b.size_ < a.size_
        · rw [if_pos h2]
          right; left
          exact ⟨rfl, Or.inr ⟨h2, fun j hj => (h j (by omega)).symm⟩⟩
        · rw [if_neg h2]
          right; right
          exact ⟨rfl, by omega, fun i hi => h i (by omega)⟩
    · rw [e]
      left
      exact ⟨rfl, Or.inl ⟨k, by omega, by omega, hpre, hlt⟩⟩
    · rw [e]
      right; left
      exact ⟨rfl, Or.inl ⟨k, by omega, by omega, fun j hj => (hpre j hj).symm, hlt⟩⟩

/-- C1: for two views `a` and `b` over non-null buffers, `a.compare(b)` returns a value that
is negative exactly when the units of `a` are lexicographically smaller than those of `b`,
positive exactly when they are larger, and `0` exactly when both views have the same length
and the same units at every index; `a == b` holds exactly in the last case, whatever the two
data pointers are. -/
theorem compare_lexicographic (m : Mem) (a b : basic_string_view) (ha : a.ptr_ ≠ 0)
    (hb : b.ptr_ ≠ 0) :
    ∃ r, basic_string_view.compare m a b = Except.ok r ∧
      (r < 0 ↔ lex_less m a b) ∧
      (0 < r ↔ lex_less m b a) ∧
      (r = 0 ↔ same_units m a b) ∧
      (basic_string_view.op_eq m a b = Except.ok true ↔ same_units m a b) := by
  rcases compare_cases m a b ha hb with ⟨e, h⟩ | ⟨e, h⟩ | ⟨e, h⟩
  · refine ⟨-1, e, ?_, ?_, ?_, ?_⟩
    · exact ⟨fun _ => h, fun _ => by omega⟩
    · exact ⟨fun g => by omega, fun g => (lex_less_asymm m a b h g).elim⟩
    · exact ⟨fun g => by omega, fun g => (lex_less_not_same m a b h g).elim⟩
    · rw [basic_string_view.op_eq, e]
      exact ⟨fun g => (by simp [Except.map] at g), fun g => (lex_less_not_same m a b h g).elim⟩
  · refine ⟨1, e, ?_, ?_, ?_, ?_⟩
    · exact ⟨fun g => by omega, fun g => (lex_less_asymm m a b g h).elim⟩
    · exact ⟨fun _ => h, fun _ => by omega⟩
    · exact ⟨fun g => by omega,
        fun g => (lex_less_not_same m b a h (same_units_symm m a b g)).elim⟩
    · rw [basic_string_view.op_eq, e]
      exact ⟨fun g => (by simp [Except.map] at g),
        fun g => (lex_less_not_same m b a h (same_units_symm m a b g)).elim⟩
  · refine ⟨0, e, ?_, ?_, ?_, ?_⟩
    · exact ⟨fun g => by omega, fun g => (lex_less_not_same m a b g h).elim⟩
    · exact ⟨fun g => by omega,
        fun g => (lex_less_not_same m b a g (same_units_symm m a b h)).elim⟩
    · exact ⟨fun _ => h, fun _ => rfl⟩
    · rw [basic_string_view.op_eq, e]
      exact ⟨fun _ => h, fun _ => rfl⟩

theorem compare_lexicographic_witness :
    ((100 : Nat) ≠ 0 ∧ (200 : Nat) ≠ 0) ∧
    ∃ r, basic_string_view.compare example_mem ⟨100, 5⟩ ⟨200, 2⟩ = Except.ok r ∧
      (r < 0 ↔ lex_less example_mem ⟨100, 5⟩ ⟨200, 2⟩) ∧
      (0 < r ↔ lex_less example_mem ⟨200, 2⟩ ⟨100, 5⟩) ∧
      (r = 0 ↔ same_units example_mem ⟨100, 5⟩ ⟨200, 2⟩) ∧
      (basic_string_view.op_eq example_mem ⟨100, 5⟩ ⟨200, 2⟩ = Except.ok true
        ↔ same_units example_mem ⟨100, 5⟩ ⟨200, 2⟩) :=
  ⟨⟨by decide, by decide⟩,
    compare_lexicographic example_mem ⟨100, 5⟩ ⟨200, 2⟩ (by decide) (by decide)⟩

/-- C2 (amended): if `v` occurs in `h` at position `p` and at no earlier position, and `h`
and `v` are not both empty, then `h.find(v)` returns `p`. -/
theorem find_first_occurrence (fuel : Nat) (m : Mem) (vs : Views) (self v p : Nat)
    (hN : (vs self).size_ < 2 ^ 64) (hM : (vs v).size_ < 2 ^ 64)
    (hfuel : (vs self).size_ + (vs v).size_ < fuel)
    (hocc : occurs_at m (vs self) (vs v) p)
    (hfirst : ∀ q, q < p → ¬ occurs_at m (vs self) (vs v) q)
    (hne : (vs self).size_ ≠ 0 ∨ (vs v).size_ ≠ 0) :
    basic_string_view.find fuel m vs self v 0 = some p := by
  obtain ⟨q, hq, hfa⟩ := find_spec fuel m vs self v 0 hN hM (by omega) hfuel
  have hfit := hocc.1
  have hp : FirstAt (occurs_at m (vs self) (vs v)) (min (vs self).size_ 0) (vs self).size_ p :=
    ⟨by omega, by omega, fun _ => hocc, fun j _ hj => hfirst j hj⟩
  have hqp : q = p := hfa.unique hp
  subst hqp
  have hlt : q < (vs self).size_ := by
    rcases hne with h | h
    · by_contra hc
      have hqN : q = (vs self).size_ := by omega
      exact hfirst 0 (by omega) ⟨by omega, fun j hj => by omega⟩
    · omega
  rw [hq, if_neg (by omega)]

theorem find_first_occurrence_witness :
    ((example_views 1).size_ < 2 ^ 64 ∧ (example_views 2).size_ < 2 ^ 64 ∧
      (example_views 1).size_ + (example_views 2).size_ < 8 ∧
      occurs_at example_mem (example_views 1) (example_views 2) 0 ∧
      (∀ q, q < 0 → ¬ occurs_at example_mem (example_views 1) (example_views 2) q) ∧
      ((example_views 1).size_ ≠ 0 ∨ (example_views 2).size_ ≠ 0)) ∧
    basic_string_view.find 8 example_mem example_views 1 2 0 = some 0 :=
  ⟨⟨by decide, by decide, by decide, by decide, by decide, by decide⟩,
    find_first_occurrence 8 example_mem example_views 1 2 0 (by decide) (by decide) (by decide)
      (by decide) (by decide) (by decide)⟩

/-- C2 as stated fails for an empty `v` in an empty `h`: `v` occurs at position `0` and
nowhere earlier, yet `h.find(v)` returns `npos`, not `0`. -/
theorem find_first_occurrence_counterexample :
    occurs_at example_mem (empty_views 1) (empty_views 2) 0 ∧
    (∀ q, q < 0 → ¬ occurs_at example_mem (empty_views 1) (empty_views 2) q) ∧
    basic_string_view.find 1 example_mem empty_views 1 2 0 = some npos ∧
    basic_string_view.find 1 example_mem empty_views 1 2 0 ≠ some 0 := by
  decide

/-- C3: for `pos <= v.size()`, `v.substr(pos, count)` has size `min(count, v.size() - pos)`
and its units are the units `pos`, `pos + 1`, ... of `v` in order; `v.substr()` with the
default arguments `0` and `npos` has the size and the units of `v`. -/
theorem substr_window (m : Mem) (v : basic_string_view) (pos count : Nat)
    (hv : v.size_ < 2 ^ 64) (hpos : pos ≤ v.size_) :
    (v.substr pos count).size_ = min count (v.size_ - pos) ∧
    (∀ i, i < (v.substr pos count).size_ →
      basic_string_view.index m (v.substr pos count) i = basic_string_view.index m v (pos + i)) ∧
    (v.substr 0 npos).size_ = v.size_ ∧
    (∀ i, i < v.size_ →
      basic_string_view.index m (v.substr 0 npos) i = basic_string_view.index m v i) := by
  have hsub : sz_sub v.size_ pos = v.size_ - pos := sz_sub_small _ _ hv hpos
  have hsub0 : sz_sub v.size_ 0 = v.size_ := by
    rw [sz_sub_small _ _ hv (Nat.zero_le _)]; rfl
  refine ⟨?_, ?_, ?_, ?_⟩
  · rw [basic_string_view.substr, hsub]
    show (if v.size_ - pos < count then v.size_ - pos else count) = _
    split <;> omega
  · intro i _
    rw [basic_string_view.substr, basic_string_view.index, basic_string_view.index]
    show m (v.ptr_ + pos + i) = m (v.ptr_ + (pos + i))
    rw [Nat.add_assoc]
  · rw [basic_string_view.substr, hsub0]
    show (if v.size_ < npos then v.size_ else npos) = _
    rw [npos_eq]
    split <;> omega
  · intro i _
    rw [basic_string_view.substr, basic_string_view.index, basic_string_view.index]
    show m (v.ptr_ + 0 + i) = m (v.ptr_ + i)
    rw [Nat.add_zero]

theorem substr_window_witness :
    (5 < 2 ^ 64 ∧ 3 ≤ 5) ∧
    ((basic_string_view.substr ⟨100, 5⟩ 3 7).size_ = min 7 (5 - 3) ∧
    (∀ i, i < (basic_string_view.substr ⟨100, 5⟩ 3 7).size_ →
      basic_string_view.index example_mem (basic_string_view.substr ⟨100, 5⟩ 3 7) i
        = basic_string_view.index example_mem ⟨100, 5⟩ (3 + i)) ∧
    (basic_string_view.substr ⟨100, 5⟩ 0 npos).size_ = 5 ∧
    (∀ i, i < 5 →
      basic_string_view.index example_mem (basic_string_view.substr ⟨100, 5⟩ 0 npos) i
        = basic_string_view.index example_mem ⟨100, 5⟩ i)) :=
  ⟨⟨by decide, by decide⟩, substr_window example_mem ⟨100, 5⟩ 3 7 (by decide) (by decide)⟩

/-- C4: `v.at(i)` raises the out-of-range failure exactly when `i >= v.size()`; for
`i < v.size()` it returns the unit that the unchecked `v[i]` returns, the unit at address
`ptr_ + i`. -/
theorem at_checked (m : Mem) (v : basic_string_view) (i : Nat) :
    (basic_string_view.at m v i = Except.error Failure.out_of_range ↔ i ≥ v.size_) ∧
    (i < v.size_ → basic_string_view.at m v i = Except.ok (basic_string_view.index m v i) ∧
      basic_string_view.index m v i = m (v.ptr_ + i)) := by
  rw [basic_string_view.at, basic_string_view.index]
  by_cases h : i ≥ v.size_
  · rw [if_pos h]
    exact ⟨⟨fun _ => h, fun _ => rfl⟩, fun g => by omega⟩
  · rw [if_neg h]
    exact ⟨⟨fun g => (by cases g), fun g => absurd g h⟩, fun _ => ⟨rfl, rfl⟩⟩

theorem traits_copy_outside :
    ∀ (n : Nat) (m : Mem) (dest src a : Nat), a < dest ∨ dest + n ≤ a →
      traits_copy m dest src n a = m a := by
  intro n
  induction n with
  | zero => intro m dest src a _; rw [traits_copy]
  | succ n ih =>
    intro m dest src a ha
    rw [traits_copy, ih _ (dest + 1) (src + 1) a (by omega)]
    have hne : a ≠ dest := by omega
    rw [Function.update_noteq hne]

theorem traits_copy_inside :
    ∀ (n : Nat) (m : Mem) (dest src : Nat), dest + n ≤ src ∨ src + n ≤ dest →
      ∀ k, k < n → traits_copy m dest src n (dest + k) = m (src + k) := by
  intro n
  induction n with
  | zero => intro m dest src _ k hk; omega
  | succ n ih =>
    intro m dest src hdisj k hk
    rw [traits_copy]
    cases k with
    | zero =>
      rw [traits_copy_outside n _ (dest + 1) (src + 1) (dest + 0) (by omega)]
      simp
    | succ k =>
      have e1 : dest + (k + 1) = dest + 1 + k := by omega
      have e2 : src + (k + 1) = src + 1 + k := by omega
      rw [e1, e2, ih _ (dest + 1) (src + 1) (by omega) k (by omega)]
      have hne : src + 1 + k ≠ dest := by omega
      rw [Function.update_noteq hne]

/-- C5: `v.copy(dest, count, pos)` raises the out-of-range failure exactly when
`pos >= v.size()`, and a raised failure carries no changed memory; otherwise it returns
`n = min(count, v.size() - pos)`, every address outside `dest[0 .. n)` holds afterwards
what it held before, and `dest[0 .. n)` holds the units `pos .. pos + n - 1` of `v` (for a
destination that does not overlap the copied units, as `traits_type::copy` requires). -/
theorem copy_checked (m : Mem) (v : basic_string_view) (dest count pos : Nat)
    (hv : v.size_ < 2 ^ 64) :
    (basic_string_view.copy m v dest count pos = Except.error Failure.out_of_range
      ↔ pos ≥ v.size_) ∧
    (pos < v.size_ → ∃ m1, basic_string_view.copy m v dest count pos
        = Except.ok (min count (v.size_ - pos), m1) ∧
      (∀ a, a < dest ∨ dest + min count (v.size_ - pos) ≤ a → m1 a = m a) ∧
      (dest + min count (v.size_ - pos) ≤ v.ptr_ + pos ∨
          v.ptr_ + pos + min count (v.size_ - pos) ≤ dest →
        ∀ k, k < min count (v.size_ - pos) →
          m1 (dest + k) = basic_string_view.index m v (pos + k))) := by
  rw [basic_string_view.copy]
  by_cases h : pos ≥ v.size_
  · rw [if_pos h]
    exact ⟨⟨fun _ => h, fun _ => rfl⟩, fun g => by omega⟩
  · rw [if_neg h]
    refine ⟨⟨fun g => (by cases g), fun g => absurd g h⟩, fun _ => ?_⟩
    have hsub : sz_sub v.size_ pos = v.size_ - pos := sz_sub_small _ _ hv (by omega)
    refine ⟨traits_copy m dest (v.ptr_ + pos) (min count (v.size_ - pos)), ?_, ?_, ?_⟩
    · simp only [hsub]
    · exact fun a ha => traits_copy_outside _ m dest (v.ptr_ + pos) a ha
    · intro hdisj k hk
      rw [traits_copy_inside _ m dest (v.ptr_ + pos) hdisj k hk, basic_string_view.index,
        Nat.add_assoc]

theorem copy_checked_witness :
    (5 < 2 ^ 64 ∧ 3 < 5) ∧
    ∃ m1, basic_string_view.copy example_mem ⟨100, 5⟩ 300 4 3 = Except.ok (min 4 (5 - 3), m1) ∧
      (∀ a, a < 300 ∨ 300 + min 4 (5 - 3) ≤ a → m1 a = example_mem a) ∧
      (300 + min 4 (5 - 3) ≤ 100 + 3 ∨ 100 + 3 + min 4 (5 - 3) ≤ 300 →
        ∀ k, k < min 4 (5 - 3) →
          m1 (300 + k) = basic_string_view.index example_mem ⟨100, 5⟩ (3 + k)) :=
  ⟨⟨by decide, by decide⟩,
    (copy_checked example_mem ⟨100, 5⟩ 300 4 3 (by decide)).2 (by decide)⟩

/-- C6: for a non-empty needle `v`, `h.rfind(v)` with the default offset `npos` returns the
greatest position at which `v` occurs in `h`, and `npos` when `v` occurs nowhere in `h`. -/
theorem rfind_last_occurrence (fuel : Nat) (m : Mem) (vs : Views) (self v : Nat)
    (hN : (vs self).size_ < 2 ^ 64) (hM : (vs v).size_ < 2 ^ 64)
    (hfuel : (vs self).size_ + (vs v).size_ < fuel) (hne : (vs v).size_ ≠ 0) :
    (∀ p, occurs_at m (vs self) (vs v) p →
      (∀ p1, occurs_at m (vs self) (vs v) p1 → p1 ≤ p) →
      basic_string_view.rfind fuel m vs self v npos = some p) ∧
    ((∀ p, ¬ occurs_at m (vs self) (vs v) p) →
      basic_string_view.rfind fuel m vs self v npos = some npos) := by
  obtain ⟨q, hq, hfa⟩ := rfind_spec fuel m vs self v npos hN hM hfuel
  have hmin : min npos (vs self).size_ = (vs self).size_ := by
    rw [npos_eq]; omega
  rw [hmin, Nat.sub_self] at hfa
  refine ⟨fun p hocc hmax => ?_, fun hnone => ?_⟩
  · have hfit := hocc.1
    have hp : FirstAt (fun j => j + (vs v).size_ ≤ (vs self).size_ ∧
        occurs_at m (vs self) (vs v) ((vs self).size_ - (vs v).size_ - j))
        0 (vs self).size_ ((vs self).size_ - (vs v).size_ - p) := by
      refine ⟨by omega, by omega, fun _ => ⟨by omega, ?_⟩, fun j _ hj hP => ?_⟩
      · have e : (vs self).size_ - (vs v).size_ - ((vs self).size_ - (vs v).size_ - p) = p := by
          omega
        rw [e]; exact hocc
      · have := hmax _ hP.2
        have := hP.1
        omega
    have hqp := hfa.unique hp
    rw [hq, if_neg (by omega), hqp]
    congr 1
    omega
  · have hqN : q = (vs self).size_ := by
      by_contra hc
      have hlt : q < (vs self).size_ := by have := hfa.2.1; omega
      exact hnone _ (hfa.2.2.1 hlt).2
    rw [hq, if_pos hqN]

theorem rfind_last_occurrence_witness :
    ((example_views 1).size_ < 2 ^ 64 ∧ (example_views 2).size_ < 2 ^ 64 ∧
      (example_views 1).size_ + (example_views 2).size_ < 8 ∧ (example_views 2).size_ ≠ 0 ∧
      occurs_at example_mem (example_views 1) (example_views 2) 3 ∧
      (∀ p1, occurs_at example_mem (example_views 1) (example_views 2) p1 → p1 ≤ 3)) ∧
    basic_string_view.rfind 8 example_mem example_views 1 2 npos = some 3 :=
  have hmax : ∀ p1, occurs_at example_mem (example_views 1) (example_views 2) p1 → p1 ≤ 3 :=
    fun p1 h => by
      have h1 : p1 + 2 ≤ 5 := h.1
      omega
  ⟨⟨by decide, by decide, by decide, by decide, by decide, hmax⟩,
    (rfind_last_occurrence 8 example_mem example_views 1 2 (by decide) (by decide) (by decide)
      (by decide)).1 3 (by decide) hmax⟩

/-- What `rfind` does with an offset `pos < size()`: the backward search covers the first
`pos` units only, so it returns the greatest occurrence that ends at or before `pos`. -/
theorem rfind_searches_front (fuel : Nat) (m : Mem) (vs : Views) (self v pos : Nat)
    (hN : (vs self).size_ < 2 ^ 64) (hM : (vs v).size_ < 2 ^ 64)
    (hfuel : (vs self).size_ + (vs v).size_ < fuel) (hne : (vs v).size_ ≠ 0)
    (hpos : pos < (vs self).size_) :
    (∀ p, occurs_at m (vs self) (vs v) p → p + (vs v).size_ ≤ pos →
      (∀ p1, occurs_at m (vs self) (vs v) p1 → p1 + (vs v).size_ ≤ pos → p1 ≤ p) →
      basic_string_view.rfind fuel m vs self v pos = some p) ∧
    ((∀ p, occurs_at m (vs self) (vs v) p → ¬ p + (vs v).size_ ≤ pos) →
      basic_string_view.rfind fuel m vs self v pos = some npos) := by
  obtain ⟨q, hq, hfa⟩ := rfind_spec fuel m vs self v pos hN hM hfuel
  have hmin : min pos (vs self).size_ = pos := by omega
  rw [hmin] at hfa
  refine ⟨fun p hocc hend hmax => ?_, fun hnone => ?_⟩
  · have hfit := hocc.1
    have hp : FirstAt (fun j => j + (vs v).size_ ≤ (vs self).size_ ∧
        occurs_at m (vs self) (vs v) ((vs self).size_ - (vs v).size_ - j))
        ((vs self).size_ - pos) (vs self).size_ ((vs self).size_ - (vs v).size_ - p) := by
      refine ⟨by omega, by omega, fun _ => ⟨by omega, ?_⟩, fun j g1 hj hP => ?_⟩
      · have e : (vs self).size_ - (vs v).size_ - ((vs self).size_ - (vs v).size_ - p) = p := by
          omega
        rw [e]; exact hocc
      · have h1 := hP.1
        have := hmax _ hP.2 (by omega)
        omega
    have hqp := hfa.unique hp
    rw [hq, if_neg (by omega), hqp]
    congr 1
    omega
  · have hqN : q = (vs self).size_ := by
      by_contra hc
      have hlt : q < (vs self).size_ := by have := hfa.2.1; omega
      have hP := hfa.2.2.1 hlt
      have h1 := hP.1
      have hge := hfa.1
      exact hnone _ hP.2 (by omega)
    rw [hq, if_pos hqN]

/-- C7 fails on the code: in the haystack with units 1 2 3 1 2 the needle 1 2 occurs at
position 3, the greatest position `p <= 3`, yet `rfind(v, 3)` returns 0: the backward search
only sees the first 3 units of the haystack. -/
theorem rfind_with_position_evaluation :
    occurs_at example_mem (example_views 1) (example_views 2) 3 ∧
    (example_views 2).size_ ≠ 0 ∧ 3 < (example_views 1).size_ ∧
    basic_string_view.rfind 8 example_mem example_views 1 2 3 = some 0 := by
  decide

/-- C8: `h.find_first_of(v, pos)` returns the lowest index `i >= pos` with `i < h.size()`
whose unit `h[i]` equals some unit of `v`, and `npos` when there is no such index. -/
theorem find_first_of_lowest (fuel : Nat) (m : Mem) (vs : Views) (self v pos : Nat)
    (hN : (vs self).size_ < 2 ^ 64) (hM : (vs v).size_ < 2 ^ 64) (hpos : pos < 2 ^ 64)
    (hfuel : (vs self).size_ + (vs v).size_ < fuel) :
    (∀ i, pos ≤ i → i < (vs self).size_ →
      member_of m (vs v) (basic_string_view.index m (vs self) i) →
      (∀ j, pos ≤ j → j < i → ¬ member_of m (vs v) (basic_string_view.index m (vs self) j)) →
      basic_string_view.find_first_of fuel m vs self v pos = some i) ∧
    ((∀ i, pos ≤ i → i < (vs self).size_ →
        ¬ member_of m (vs v) (basic_string_view.index m (vs self) i)) →
      basic_string_view.find_first_of fuel m vs self v pos = some npos) := by
  obtain ⟨q, hq, hfa⟩ := find_first_of_spec fuel m vs self v pos hN hM hpos hfuel
  refine ⟨fun i h1 h2 hmem hlow => ?_, fun hnone => ?_⟩
  · have hi : FirstAt (fun j => member_of m (vs v) (m ((vs self).ptr_ + j)))
        (min (vs self).size_ pos) (vs self).size_ i :=
      ⟨by omega, by omega, fun _ => hmem, fun j g1 g2 => hlow j (by omega) g2⟩
    have hqi := hfa.unique hi
    rw [hq, if_neg (by omega), hqi]
  · have hqN : q = (vs self).size_ := by
      by_contra hc
      have hlt : q < (vs self).size_ := by have := hfa.2.1; omega
      have hge := hfa.1
      exact hnone q (by omega) hlt (hfa.2.2.1 hlt)
    rw [hq, if_pos hqN]

theorem find_first_of_lowest_witness :
    ((example_views 1).size_ < 2 ^ 64 ∧ (example_views 2).size_ < 2 ^ 64 ∧ 2 < 2 ^ 64 ∧
      (example_views 1).size_ + (example_views 2).size_ < 8 ∧
      2 ≤ 3 ∧ 3 < (example_views 1).size_ ∧
      member_of example_mem (example_views 2)
        (basic_string_view.index example_mem (example_views 1) 3) ∧
      (∀ j, 2 ≤ j → j < 3 → ¬ member_of example_mem (example_views 2)
        (basic_string_view.index example_mem (example_views 1) j))) ∧
    basic_string_view.find_first_of 8 example_mem example_views 1 2 2 = some 3 :=
  have hlow : ∀ j, 2 ≤ j → j < 3 → ¬ member_of example_mem (example_views 2)
      (basic_string_view.index example_mem (example_views 1) j) :=
    fun j h1 h2 => by
      have hj : j = 2 := by omega
      subst hj
      decide
  ⟨⟨by decide, by decide, by decide, by decide, by decide, by decide, by decide, hlow⟩,
    (find_first_of_lowest 8 example_mem example_views 1 2 2 (by decide) (by decide) (by decide)
      (by decide)).1 3 (by decide) (by decide) (by decide) hlow⟩

/-- C9: `h.find_first_not_of(v, pos)` returns the lowest index `i >= pos` with
`i < h.size()` whose unit `h[i]` equals no unit of `v`, and `npos` when there is no such
index; for an empty `h` it returns `npos`, whatever `v` is. -/
theorem find_first_not_of_lowest (fuel : Nat) (m : Mem) (vs : Views) (self v pos : Nat)
    (hN : (vs self).size_ < 2 ^ 64) (hM : (vs v).size_ < 2 ^ 64) (hpos : pos < 2 ^ 64)
    (hfuel : (vs self).size_ < fuel) :
    (∀ i, pos ≤ i → i < (vs self).size_ →
      ¬ member_of m (vs v) (basic_string_view.index m (vs self) i) →
      (∀ j, pos ≤ j → j < i → member_of m (vs v) (basic_string_view.index m (vs self) j)) →
      basic_string_view.find_first_not_of fuel m vs self v pos = some i) ∧
    ((∀ i, pos ≤ i → i < (vs self).size_ →
        member_of m (vs v) (basic_string_view.index m (vs self) i)) →
      basic_string_view.find_first_not_of fuel m vs self v pos = some npos) ∧
    ((vs self).size_ = 0 →
      basic_string_view.find_first_not_of fuel m vs self v pos = some npos) := by
  obtain ⟨q, hq, hfa⟩ := find_first_not_of_spec fuel m vs self v pos hN hM hpos hfuel
  have hnone : (∀ i, pos ≤ i → i < (vs self).size_ →
        member_of m (vs v) (basic_string_view.index m (vs self) i)) →
      basic_string_view.find_first_not_of fuel m vs self v pos = some npos := by
    intro hall
    have hqN : q = (vs self).size_ := by
      by_contra hc
      have hlt : q < (vs self).size_ := by have := hfa.2.1; omega
      have hge := hfa.1
      exact (hfa.2.2.1 hlt) (hall q (by omega) hlt)
    rw [hq, if_pos hqN]
  refine ⟨fun i h1 h2 hmem hlow => ?_, hnone, fun hempty => hnone (fun i _ hi => by omega)⟩
  have hi : FirstAt (fun j => ¬ member_of m (vs v) (m ((vs self).ptr_ + j)))
      (min (vs self).size_ pos) (vs self).size_ i :=
    ⟨by omega, by omega, fun _ => hmem, fun j g1 g2 g3 => g3 (hlow j (by omega) g2)⟩
  have hqi := hfa.unique hi
  rw [hq, if_neg (by omega), hqi]

theorem find_first_not_of_lowest_witness :
    ((example_views 1).size_ < 2 ^ 64 ∧ (example_views 2).size_ < 2 ^ 64 ∧ 1 < 2 ^ 64 ∧
      (example_views 1).size_ < 8 ∧ 1 ≤ 2 ∧ 2 < (example_views 1).size_ ∧
      ¬ member_of example_mem (example_views 2)
        (basic_string_view.index example_mem (example_views 1) 2) ∧
      (∀ j, 1 ≤ j → j < 2 → member_of example_mem (example_views 2)
        (basic_string_view.index example_mem (example_views 1) j))) ∧
    basic_string_view.find_first_not_of 8 example_mem example_views 1 2 1 = some 2 :=
  have hlow : ∀ j, 1 ≤ j → j < 2 → member_of example_mem (example_views 2)
      (basic_string_view.index example_mem (example_views 1) j) :=
    fun j h1 h2 => by
      have hj : j = 1 := by omega
      subst hj
      decide
  ⟨⟨by decide, by decide, by decide, by decide, by decide, by decide, by decide, hlow⟩,
    (find_first_not_of_lowest 8 example_mem example_views 1 2 1 (by decide) (by decide)
      (by decide) (by decide)).1 2 (by decide) (by decide) (by decide) hlow⟩

/-- C10: `h.find_last_of(v, pos)` returns the highest index `i < min(pos, h.size())` whose
unit `h[i]` equals some unit of `v`, and `npos` when there is no such index; with the default
offset `npos` the bound is `h.size()`, and with `pos = 0` nothing is searched. -/
theorem find_last_of_highest (fuel : Nat) (m : Mem) (vs : Views) (self v pos : Nat)
    (hN : (vs self).size_ < 2 ^ 64) (hM : (vs v).size_ < 2 ^ 64)
    (hfuel : (vs self).size_ + (vs v).size_ < fuel) :
    (∀ i, i < min pos (vs self).size_ →
      member_of m (vs v) (basic_string_view.index m (vs self) i) →
      (∀ j, i < j → j < min pos (vs self).size_ →
        ¬ member_of m (vs v) (basic_string_view.index m (vs self) j)) →
      basic_string_view.find_last_of fuel m vs self v pos = some i) ∧
    ((∀ i, i < min pos (vs self).size_ →
        ¬ member_of m (vs v) (basic_string_view.index m (vs self) i)) →
      basic_string_view.find_last_of fuel m vs self v pos = some npos) ∧
    min npos (vs self).size_ = (vs self).size_ ∧
    (pos = 0 → basic_string_view.find_last_of fuel m vs self v pos = some npos) := by
  obtain ⟨q, hq, hfa⟩ := find_last_of_spec fuel m vs self v pos hN hM hfuel
  have hnone : (∀ i, i < min pos (vs self).size_ →
        ¬ member_of m (vs v) (basic_string_view.index m (vs self) i)) →
      basic_string_view.find_last_of fuel m vs self v pos = some npos := by
    intro hall
    have hqN : q = (vs self).size_ := by
      by_contra hc
      have hlt : q < (vs self).size_ := by have := hfa.2.1; omega
      have hge := hfa.1
      exact hall ((vs self).size_ - 1 - q) (by omega) (hfa.2.2.1 hlt)
    rw [hq, if_pos hqN]
  refine ⟨fun i h1 hmem hhigh => ?_, hnone, by rw [npos_eq]; omega,
    fun h0 => hnone (fun i hi => by omega)⟩
  have hi : FirstAt
      (fun j => member_of m (vs v) (m ((vs self).ptr_ + ((vs self).size_ - 1 - j))))
      ((vs self).size_ - min pos (vs self).size_) (vs self).size_ ((vs self).size_ - 1 - i) := by
    refine ⟨by omega, by omega, fun _ => ?_, fun j g1 g2 g3 => ?_⟩
    · have e : (vs self).size_ - 1 - ((vs self).size_ - 1 - i) = i := by omega
      show member_of m (vs v)
        (m ((vs self).ptr_ + ((vs self).size_ - 1 - ((vs self).size_ - 1 - i))))
      rw [e]; exact hmem
    · exact hhigh ((vs self).size_ - 1 - j) (by omega) (by omega) g3
  have hqi := hfa.unique hi
  rw [hq, if_neg (by omega), hqi]
  congr 1
  omega

theorem find_last_of_highest_witness :
    ((example_views 1).size_ < 2 ^ 64 ∧ (example_views 2).size_ < 2 ^ 64 ∧
      (example_views 1).size_ + (example_views 2).size_ < 8 ∧
      3 < min 4 (example_views 1).size_ ∧
      member_of example_mem (example_views 2)
        (basic_string_view.index example_mem (example_views 1) 3) ∧
      (∀ j, 3 < j → j < min 4 (example_views 1).size_ → ¬ member_of example_mem (example_views 2)
        (basic_string_view.index example_mem (example_views 1) j))) ∧
    basic_string_view.find_last_of 8 example_mem example_views 1 2 4 = some 3 :=
  have hhigh : ∀ j, 3 < j → j < min 4 (example_views 1).size_ →
      ¬ member_of example_mem (example_views 2)
        (basic_string_view.index example_mem (example_views 1) j) :=
    fun j h1 h2 => by
      have h3 : j < 4 := lt_of_lt_of_le h2 (Nat.min_le_left _ _)
      omega
  ⟨⟨by decide, by decide, by decide, by decide, by decide, hhigh⟩,
    (find_last_of_highest 8 example_mem example_views 1 2 4 (by decide) (by decide)
      (by decide)).1 3 (by decide) (by decide) hhigh⟩

/-- What `find_last_not_of` computes, in terms of the index `q` counted from the end. -/
theorem find_last_not_of_spec (fuel : Nat) (m : Mem) (vs : Views) (self v pos : Nat)
    (hN : (vs self).size_ < 2 ^ 64) (hM : (vs v).size_ < 2 ^ 64)
    (hfuel : (vs self).size_ < fuel) :
    ∃ q, basic_string_view.find_last_not_of fuel m vs self v pos
          = some (if q = (vs self).size_ then npos else (vs self).size_ - q - 1) ∧
      FirstAt (fun j => ¬ member_of m (vs v) (m ((vs self).ptr_ + ((vs self).size_ - 1 - j))))
        ((vs self).size_ - min pos (vs self).size_) (vs self).size_ q := by
  obtain ⟨q, hq, hfirst⟩ := std_find_if_walk (reverse_walk vs m self hN)
    (fun c => basic_string_view.find_char m (vs v) c 0 == npos) fuel
    ((vs self).size_ - min pos (vs self).size_) (Nat.sub_le _ _) (by omega)
  have hqN : q ≤ (vs self).size_ := hfirst.2.1
  refine ⟨q, ?_, ?_⟩
  · unfold basic_string_view.find_last_not_of
    simp only
    rw [offset_from_end _ pos hN, rbegin_plus vs self _ hN (Nat.sub_le _ _)]
    have hq2 : std_find_if (reverse_iter vs m)
        (fun c => basic_string_view.find_char m (vs v) c 0 == npos)
        (basic_string_view.rend self) fuel
        ⟨⟨self, (vs self).size_ - ((vs self).size_ - min pos (vs self).size_)⟩⟩
        = some ⟨⟨self, (vs self).size_ - q⟩⟩ := by
      simp only [Nat.sub_zero, Nat.sub_self] at hq
      exact hq
    rw [hq2]
    simp only [Option.map_some', reverse_iterator.eq, const_iterator.eq, basic_string_view.rend,
      basic_string_view.begin, beq_self_eq_true, Bool.true_and, beq_iff_eq]
    by_cases hqe : q = (vs self).size_
    · have : (vs self).size_ - q = 0 := by omega
      rw [if_pos this, if_pos hqe]
    · have : ¬ ((vs self).size_ - q = 0) := by omega
      rw [if_neg this, if_neg hqe, reverse_index vs self q hN hqN]
      rw [sz_sub_small _ q hN hqN, sz_sub_small _ 1 (by omega) (by omega)]
  · obtain ⟨h1, h2, h3, h4⟩ := hfirst
    exact ⟨h1, h2, fun h => (find_char_eq_npos m _ _ hM).1 (h3 h),
      fun j g1 g2 g3 => h4 j g1 g2 ((find_char_eq_npos m _ _ hM).2 g3)⟩

/-- C11: `h.find_last_not_of(v)` with the default offset `npos` returns the highest index
`i < h.size()` whose unit `h[i]` equals no unit of `v`, and `npos` when every unit of `h` is
a unit of `v`, in particular for every empty `h`. -/
theorem find_last_not_of_highest (fuel : Nat) (m : Mem) (vs : Views) (self v : Nat)
    (hN : (vs self).size_ < 2 ^ 64) (hM : (vs v).size_ < 2 ^ 64)
    (hfuel : (vs self).size_ < fuel) :
    (∀ i, i < (vs self).size_ →
      ¬ member_of m (vs v) (basic_string_view.index m (vs self) i) →
      (∀ j, i < j → j < (vs self).size_ →
        member_of m (vs v) (basic_string_view.index m (vs self) j)) →
      basic_string_view.find_last_not_of fuel m vs self v npos = some i) ∧
    ((∀ i, i < (vs self).size_ →
        member_of m (vs v) (basic_string_view.index m (vs self) i)) →
      basic_string_view.find_last_not_of fuel m vs self v npos = some npos) ∧
    ((vs self).size_ = 0 →
      basic_string_view.find_last_not_of fuel m vs self v npos = some npos) := by
  obtain ⟨q, hq, hfa⟩ := find_last_not_of_spec fuel m vs self v npos hN hM hfuel
  have hmin : min npos (vs self).size_ = (vs self).size_ := by
    rw [npos_eq]; omega
  rw [hmin, Nat.sub_self] at hfa
  have hnone : (∀ i, i < (vs self).size_ →
        member_of m (vs v) (basic_string_view.index m (vs self) i)) →
      basic_string_view.find_last_not_of fuel m vs self v npos = some npos := by
    intro hall
    have hqN : q = (vs self).size_ := by
      by_contra hc
      have hlt : q < (vs self).size_ := by have := hfa.2.1; omega
      exact (hfa.2.2.1 hlt) (hall ((vs self).size_ - 1 - q) (by omega))
    rw [hq, if_pos hqN]
  refine ⟨fun i h1 hnot hhigh => ?_, hnone, fun h0 => hnone (fun i hi => by omega)⟩
  have hi : FirstAt
      (fun j => ¬ member_of m (vs v) (m ((vs self).ptr_ + ((vs self).size_ - 1 - j))))
      0 (vs self).size_ ((vs self).size_ - 1 - i) := by
    refine ⟨by omega, by omega, fun _ => ?_, fun j g1 g2 g3 => ?_⟩
    · have e : (vs self).size_ - 1 - ((vs self).size_ - 1 - i) = i := by omega
      show ¬ member_of m (vs v)
        (m ((vs self).ptr_ + ((vs self).size_ - 1 - ((vs self).size_ - 1 - i))))
      rw [e]; exact hnot
    · exact g3 (hhigh ((vs self).size_ - 1 - j) (by omega) (by omega))
  have hqi := hfa.unique hi
  rw [hq, if_neg (by omega), hqi]
  congr 1
  omega

theorem find_last_not_of_highest_witness :
    ((example_views 1).size_ < 2 ^ 64 ∧ (example_views 2).size_ < 2 ^ 64 ∧
      (example_views 1).size_ < 8 ∧ 2 < (example_views 1).size_ ∧
      ¬ member_of example_mem (example_views 2)
        (basic_string_view.index example_mem (example_views 1) 2) ∧
      (∀ j, 2 < j → j < (example_views 1).size_ → member_of example_mem (example_views 2)
        (basic_string_view.index example_mem (example_views 1) j))) ∧
    basic_string_view.find_last_not_of 8 example_mem example_views 1 2 npos = some 2 :=
  have hhigh : ∀ j, 2 < j → j < (example_views 1).size_ →
      member_of example_mem (example_views 2)
        (basic_string_view.index example_mem (example_views 1) j) :=
    fun j h1 h2 => by
      have h3 : j < 5 := h2
      have hj : j = 3 ∨ j = 4 := by omega
      rcases hj with hj | hj <;> subst hj <;> decide
  ⟨⟨by decide, by decide, by decide, by decide, by decide, hhigh⟩,
    (find_last_not_of_highest 8 example_mem example_views 1 2 (by decide) (by decide)
      (by decide)).1 2 (by decide) (by decide) hhigh⟩

/-- C12: for two views `a` and `b` over non-null buffers, `a.compare(b)` is the negation of
`b.compare(a)`, and `v.compare(v)` is `0` for every view `v` over a non-null buffer. -/
theorem compare_antisymmetric (m : Mem) (a b : basic_string_view) (ha : a.ptr_ ≠ 0)
    (hb : b.ptr_ ≠ 0) :
    (∃ r s, basic_string_view.compare m a b = Except.ok r ∧
      basic_string_view.compare m b a = Except.ok s ∧ r = -s) ∧
    basic_string_view.compare m a a = Except.ok 0 := by
  constructor
  · rcases compare_cases m a b ha hb with ⟨e, h⟩ | ⟨e, h⟩ | ⟨e, h⟩ <;>
      rcases compare_cases m b a hb ha with ⟨f, g⟩ | ⟨f, g⟩ | ⟨f, g⟩
    · exact (lex_less_asymm m a b h g).elim
    · exact ⟨-1, 1, e, f, rfl⟩
    · exact (lex_less_not_same m a b h (same_units_symm m b a g)).elim
    · exact ⟨1, -1, e, f, rfl⟩
    · exact (lex_less_asymm m b a h g).elim
    · exact (lex_less_not_same m b a h g).elim
    · exact (lex_less_not_same m b a g (same_units_symm m a b h)).elim
    · exact (lex_less_not_same m a b g h).elim
    · exact ⟨0, 0, e, f, rfl⟩
  · rw [basic_string_view.compare, if_neg ha, if_neg ha, if_pos ⟨rfl, rfl⟩]

theorem compare_antisymmetric_witness :
    ((100 : Nat) ≠ 0 ∧ (200 : Nat) ≠ 0) ∧
    (∃ r s, basic_string_view.compare example_mem ⟨100, 5⟩ ⟨200, 2⟩ = Except.ok r ∧
      basic_string_view.compare example_mem ⟨200, 2⟩ ⟨100, 5⟩ = Except.ok s ∧ r = -s) ∧
    basic_string_view.compare example_mem ⟨100, 5⟩ ⟨100, 5⟩ = Except.ok 0 :=
  ⟨⟨by decide, by decide⟩,
    compare_antisymmetric example_mem ⟨100, 5⟩ ⟨200, 2⟩ (by decide) (by decide)⟩

/-- C13: if `v` occurs at no position `p >= pos` of `h`, then `h.find(v, pos)` returns `npos`;
in every case the search returns an index and no failure. -/
theorem find_absent (fuel : Nat) (m : Mem) (vs : Views) (self v pos : Nat)
    (hN : (vs self).size_ < 2 ^ 64) (hM : (vs v).size_ < 2 ^ 64) (hpos : pos < 2 ^ 64)
    (hfuel : (vs self).size_ + (vs v).size_ < fuel) :
    ((∀ p, pos ≤ p → ¬ occurs_at m (vs self) (vs v) p) →
      basic_string_view.find fuel m vs self v pos = some npos) ∧
    ∃ r, basic_string_view.find fuel m vs self v pos = some r := by
  obtain ⟨q, hq, hfa⟩ := find_spec fuel m vs self v pos hN hM hpos hfuel
  refine ⟨fun hnone => ?_, _, hq⟩
  have hqN : q = (vs self).size_ := by
    by_contra hc
    have hlt : q < (vs self).size_ := by have := hfa.2.1; omega
    have hge := hfa.1
    exact hnone q (by omega) (hfa.2.2.1 hlt)
  rw [hq, if_pos hqN]

theorem find_absent_witness :
    ((example_views 1).size_ < 2 ^ 64 ∧ (example_views 2).size_ < 2 ^ 64 ∧ 4 < 2 ^ 64 ∧
      (example_views 1).size_ + (example_views 2).size_ < 8 ∧
      (∀ p, 4 ≤ p → ¬ occurs_at example_mem (example_views 1) (example_views 2) p)) ∧
    basic_string_view.find 8 example_mem example_views 1 2 4 = some npos :=
  have hnone : ∀ p, 4 ≤ p → ¬ occurs_at example_mem (example_views 1) (example_views 2) p :=
    fun p hp h => by
      have h1 : p + 2 ≤ 5 := h.1
      omega
  ⟨⟨by decide, by decide, by decide, by decide, hnone⟩,
    (find_absent 8 example_mem example_views 1 2 4 (by decide) (by decide) (by decide)
      (by decide)).1 hnone⟩

/-- C14: for an offset `pos >= h.size()` both `h.find(v, pos)` and `h.find_first_of(v, pos)`
return `npos`, for an empty `v` as for any other. -/
theorem find_from_end (fuel : Nat) (m : Mem) (vs : Views) (self v pos : Nat)
    (hN : (vs self).size_ < 2 ^ 64) (hM : (vs v).size_ < 2 ^ 64) (hpos : pos < 2 ^ 64)
    (hfuel : (vs self).size_ + (vs v).size_ < fuel) (hge : pos ≥ (vs self).size_) :
    basic_string_view.find fuel m vs self v pos = some npos ∧
    basic_string_view.find_first_of fuel m vs self v pos = some npos := by
  obtain ⟨q, hq, hfa⟩ := find_spec fuel m vs self v pos hN hM hpos hfuel
  obtain ⟨r, hr, hfb⟩ := find_first_of_spec fuel m vs self v pos hN hM hpos hfuel
  have hqN : q = (vs self).size_ := by
    have h1 := hfa.1
    have h2 := hfa.2.1
    omega
  have hrN : r = (vs self).size_ := by
    have h1 := hfb.1
    have h2 := hfb.2.1
    omega
  rw [hq, hr, if_pos hqN, if_pos hrN]
  exact ⟨rfl, rfl⟩

theorem find_from_end_witness :
    ((example_views 1).size_ < 2 ^ 64 ∧ (example_views 2).size_ < 2 ^ 64 ∧ 5 < 2 ^ 64 ∧
      (example_views 1).size_ + (example_views 2).size_ < 8 ∧ 5 ≥ (example_views 1).size_) ∧
    basic_string_view.find 8 example_mem example_views 1 2 5 = some npos ∧
    basic_string_view.find_first_of 8 example_mem example_views 1 2 5 = some npos :=
  ⟨⟨by decide, by decide, by decide, by decide, by decide⟩,
    find_from_end 8 example_mem example_views 1 2 5 (by decide) (by decide) (by decide)
      (by decide) (by decide)⟩

/-- C15 fails on the code for `pos > size()`: on the view of the two units at 100 and 101
the search for the unit 1 from offset 3 returns 3, not `npos`; the count `size_ - pos` wraps
around and the unit found is the one at address 103, outside the window.  With another
unit at 103 and the window unchanged the result is another one. -/
theorem find_char_past_end_evaluation :
    3 ≥ (basic_string_view.mk 100 2).size_ ∧
    basic_string_view.find_char example_mem ⟨100, 2⟩ 1 3 = 3 ∧
    basic_string_view.find_char example_mem ⟨100, 2⟩ 1 3 ≠ npos ∧
    (∀ i, i < 2 → Function.update example_mem 103 9 (100 + i) = example_mem (100 + i)) ∧
    basic_string_view.find_char (Function.update example_mem 103 9) ⟨100, 2⟩ 1 3 = 100 := by
  decide

/-- What the single-unit `find` computes for an offset `pos <= size()`. -/
theorem find_char_spec (m : Mem) (h : basic_string_view) (c pos : Nat)
    (hN : h.size_ < 2 ^ 64) (hpos : pos ≤ h.size_) :
    (∀ i, pos ≤ i → i < h.size_ → m (h.ptr_ + i) = c →
      (∀ j, pos ≤ j → j < i → m (h.ptr_ + j) ≠ c) →
      basic_string_view.find_char m h c pos = i) ∧
    ((∀ i, pos ≤ i → i < h.size_ → m (h.ptr_ + i) ≠ c) →
      basic_string_view.find_char m h c pos = npos) := by
  rw [basic_string_view.find_char, sz_sub_small _ pos hN hpos]
  cases hfind : traits_find m (h.ptr_ + pos) (h.size_ - pos) c with
  | none =>
    have hnone := (traits_find_none m c (h.size_ - pos) (h.ptr_ + pos)).1 hfind
    refine ⟨fun i h1 h2 h3 _ => ?_, fun _ => rfl⟩
    have := hnone (i - pos) (by omega)
    have e : h.ptr_ + pos + (i - pos) = h.ptr_ + i := by omega
    rw [e] at this
    exact absurd h3 this
  | some a =>
    obtain ⟨k, h1, h2, h3, h4⟩ := traits_find_some m c (h.size_ - pos) (h.ptr_ + pos) a hfind
    have hval : (a - h.ptr_) % size_mod = pos + k := by
      have e : a - h.ptr_ = pos + k := by omega
      rw [e, size_mod_eq]
      exact Nat.mod_eq_of_lt (by omega)
    have e3 : h.ptr_ + pos + k = h.ptr_ + (pos + k) := by omega
    rw [e3] at h3
    show ((∀ i, pos ≤ i → i < h.size_ → m (h.ptr_ + i) = c →
        (∀ j, pos ≤ j → j < i → m (h.ptr_ + j) ≠ c) → (a - h.ptr_) % size_mod = i) ∧
      ((∀ i, pos ≤ i → i < h.size_ → m (h.ptr_ + i) ≠ c) → (a - h.ptr_) % size_mod = npos))
    rw [hval]
    refine ⟨fun i g1 g2 g3 g4 => ?_, fun hall => absurd h3 (hall (pos + k) (by omega) (by omega))⟩
    rcases Nat.lt_trichotomy (pos + k) i with hlt | heq | hgt
    · exact absurd h3 (g4 (pos + k) (by omega) hlt)
    · exact heq
    · have := h4 (i - pos) (by omega)
      have e : h.ptr_ + pos + (i - pos) = h.ptr_ + i := by omega
      rw [e] at this
      exact absurd g3 this

/-- C16: for `pos <= h.size()`, `h.find(c, pos)` returns the lowest index `i >= pos` with
`i < h.size()` and `h[i] == c`, and `npos` when there is no such index; it returns what
`h.find(v, pos)` returns for a view `v` of the one unit `c`. -/
theorem find_char_lowest (fuel : Nat) (m : Mem) (vs : Views) (self v c pos : Nat)
    (hN : (vs self).size_ < 2 ^ 64) (hpos : pos ≤ (vs self).size_)
    (hv1 : (vs v).size_ = 1) (hvc : m (vs v).ptr_ = c)
    (hfuel : (vs self).size_ + (vs v).size_ < fuel) :
    (∀ i, pos ≤ i → i < (vs self).size_ → basic_string_view.index m (vs self) i = c →
      (∀ j, pos ≤ j → j < i → basic_string_view.index m (vs self) j ≠ c) →
      basic_string_view.find_char m (vs self) c pos = i) ∧
    ((∀ i, pos ≤ i → i < (vs self).size_ → basic_string_view.index m (vs self) i ≠ c) →
      basic_string_view.find_char m (vs self) c pos = npos) ∧
    basic_string_view.find fuel m vs self v pos
      = some (basic_string_view.find_char m (vs self) c pos) := by
  obtain ⟨hlow, hnone⟩ := find_char_spec m (vs self) c pos hN hpos
  refine ⟨hlow, hnone, ?_⟩
  obtain ⟨q, hq, hfa⟩ := find_spec fuel m vs self v pos hN (by omega) (by omega) hfuel
  have hocc : ∀ p, occurs_at m (vs self) (vs v) p ↔
      (p < (vs self).size_ ∧ m ((vs self).ptr_ + p) = c) := by
    intro p
    rw [occurs_at, hv1]
    constructor
    · rintro ⟨g1, g2⟩
      have := g2 0 (by omega)
      rw [Nat.add_zero, Nat.add_zero, hvc] at this
      exact ⟨by omega, this⟩
    · rintro ⟨g1, g2⟩
      refine ⟨by omega, fun j hj => ?_⟩
      have hj0 : j = 0 := by omega
      subst hj0
      rw [Nat.add_zero, Nat.add_zero, hvc]
      exact g2
  have hmin : min (vs self).size_ pos = pos := by omega
  rw [hmin] at hfa
  rw [hq]
  congr 1
  by_cases hqN : q = (vs self).size_
  · rw [if_pos hqN]
    refine (hnone (fun i g1 g2 g3 => ?_)).symm
    exact hfa.2.2.2 i g1 (by omega) ((hocc i).2 ⟨g2, g3⟩)
  · rw [if_neg hqN]
    have hlt : q < (vs self).size_ := by have := hfa.2.1; omega
    refine (hlow q hfa.1 hlt ((hocc q).1 (hfa.2.2.1 hlt)).2 (fun j g1 g2 g3 => ?_)).symm
    exact hfa.2.2.2 j g1 g2 ((hocc j).2 ⟨by omega, g3⟩)

theorem find_char_lowest_witness :
    ((single_views 1).size_ < 2 ^ 64 ∧ 1 ≤ (single_views 1).size_ ∧
      (single_views 2).size_ = 1 ∧
      example_mem (single_views 2).ptr_ = 1 ∧
      (single_views 1).size_ + (single_views 2).size_ < 8) ∧
    basic_string_view.find_char example_mem (single_views 1) 1 1 = 3 ∧
    basic_string_view.find 8 example_mem single_views 1 2 1
      = some (basic_string_view.find_char example_mem (single_views 1) 1 1) :=
  have h := find_char_lowest 8 example_mem single_views 1 2 1 1 (by decide) (by decide)
    (by decide) (by decide) (by decide)
  ⟨⟨by decide, by decide, by decide, by decide, by decide⟩,
    h.1 3 (by decide) (by decide) (by decide)
      (fun j h1 h2 => by
        have hj : j = 1 ∨ j = 2 := by omega
        rcases hj with hj | hj <;> subst hj <;> decide),
    h.2.2⟩

/-- What the ordering comparisons return for two iterators bound to different views. -/
theorem compare_across_views (a b : const_iterator) (h : a.view_ ≠ b.view_) :
    a.lt b = false ∧ a.gt b = false ∧ a.le b = true ∧ a.ge b = true := by
  have hv : (a.view_ == b.view_) = false := by simpa using h
  simp [const_iterator.lt, const_iterator.gt, const_iterator.le, const_iterator.ge, hv]

/-- C17 fails on the code: for the iterators at position 0 of the view objects 1 and 2,
`a < b` and `a > b` are false, but `a <= b` and `a >= b` are true. -/
theorem compare_across_views_evaluation :
    (const_iterator.mk 1 0).view_ ≠ (const_iterator.mk 2 0).view_ ∧
    const_iterator.lt ⟨1, 0⟩ ⟨2, 0⟩ = false ∧ const_iterator.gt ⟨1, 0⟩ ⟨2, 0⟩ = false ∧
    const_iterator.le ⟨1, 0⟩ ⟨2, 0⟩ = true ∧ const_iterator.ge ⟨1, 0⟩ ⟨2, 0⟩ = true := by
  decide

/-- What `operator-=` computes on an iterator at a position `p <= size()`: the wrapped
difference when it is a position of the view, `0` otherwise. -/
theorem sub_assign_spec (vs : Views) (w p n : Nat) (hL : (vs w).size_ < 2 ^ 64)
    (hp : p ≤ (vs w).size_) (hn : n < 2 ^ 64) :
    (n ≤ p → const_iterator.sub_assign vs ⟨w, p⟩ n = ⟨w, p - n⟩) ∧
    (p < n → n - p < 2 ^ 64 - (vs w).size_ → const_iterator.sub_assign vs ⟨w, p⟩ n = ⟨w, 0⟩) ∧
    (p < n → 2 ^ 64 - (vs w).size_ ≤ n - p →
      const_iterator.sub_assign vs ⟨w, p⟩ n = ⟨w, 2 ^ 64 - (n - p)⟩) := by
  refine ⟨fun h => ?_, fun h1 h2 => ?_, fun h1 h2 => ?_⟩
  · have e : sz_sub p n = p - n := sz_sub_small p n (by omega) h
    have hle : ¬ (p - n > (vs w).size_) := by omega
    simp only [const_iterator.sub_assign, e, hle, if_false]
  · have e : sz_sub p n = 2 ^ 64 - (n - p) := by
      unfold sz_sub size_mod; omega
    have hgt : 2 ^ 64 - (n - p) > (vs w).size_ := by omega
    simp only [const_iterator.sub_assign, e, hgt, if_true]
  · have e : sz_sub p n = 2 ^ 64 - (n - p) := by
      unfold sz_sub size_mod; omega
    have hle : ¬ (2 ^ 64 - (n - p) > (vs w).size_) := by omega
    simp only [const_iterator.sub_assign, e, hle, if_false]

/-- C18 fails on the code: on a view of size 5 the iterator at position 0 is moved by
`it -= n` with `n = 2 ^ 64 - 3` to position 3, not to 0, and `it - n` is at position 3 too:
the wrapped difference is a position of the view, so the underflow test does not fire. -/
theorem sub_assign_wraps_evaluation :
    (example_views 1).size_ = 5 ∧ 0 ≤ (example_views 1).size_ ∧
    (0 : Nat) < 18446744073709551613 ∧ 18446744073709551613 < 2 ^ 64 ∧
    const_iterator.sub_assign example_views ⟨1, 0⟩ 18446744073709551613 = ⟨1, 3⟩ ∧
    const_iterator.minus example_views ⟨1, 0⟩ 18446744073709551613 = ⟨1, 3⟩ := by
  decide

/-- C19 (amended): for an iterator bound to a view of size `L` at a position `p <= L`, after
`it += n` (and for the results of `it + n` and `n + it`) the iterator is bound to the same
view at a position that is never past `L`; when the sum `p + n` fits into `size_type` the
position is `min(L, p + n)`, which is not before `p`. -/
theorem add_assign_clamped (vs : Views) (w p n : Nat) (hp : p ≤ (vs w).size_) :
    (const_iterator.add_assign vs ⟨w, p⟩ n).view_ = w ∧
    (const_iterator.add_assign vs ⟨w, p⟩ n).pos_ ≤ (vs w).size_ ∧
    const_iterator.plus vs ⟨w, p⟩ n = const_iterator.add_assign vs ⟨w, p⟩ n ∧
    const_iterator.plus_left vs n ⟨w, p⟩ = const_iterator.add_assign vs ⟨w, p⟩ n ∧
    (p + n < 2 ^ 64 →
      const_iterator.add_assign vs ⟨w, p⟩ n = ⟨w, min (vs w).size_ (p + n)⟩ ∧
      p ≤ (const_iterator.add_assign vs ⟨w, p⟩ n).pos_) := by
  refine ⟨rfl, ?_, rfl, rfl, fun hsum => ?_⟩
  · simp only [const_iterator.add_assign]
    exact Nat.min_le_left _ _
  · simp only [const_iterator.add_assign, sz_add_small p n hsum]
    exact ⟨trivial, by omega⟩

theorem add_assign_clamped_witness :
    (3 ≤ (example_views 1).size_ ∧ 3 + 4 < 2 ^ 64) ∧
    const_iterator.add_assign example_views ⟨1, 3⟩ 4 = ⟨1, min (example_views 1).size_ (3 + 4)⟩ ∧
    3 ≤ (const_iterator.add_assign example_views ⟨1, 3⟩ 4).pos_ :=
  ⟨⟨by decide, by decide⟩,
    (add_assign_clamped example_views 1 3 4 (by decide)).2.2.2.2 (by decide)⟩

/-- C19 as stated fails when `p + n` does not fit into `size_type`: on a view of size 5 the
iterator at position 3 is moved by `it += n` with `n = 2 ^ 64 - 1` to position 2, which is
before 3 and is not `min(5, 3 + n) = 5`. -/
theorem add_assign_clamped_counterexample :
    (example_views 1).size_ = 5 ∧ 3 ≤ (example_views 1).size_ ∧
    18446744073709551615 < 2 ^ 64 ∧
    const_iterator.add_assign example_views ⟨1, 3⟩ 18446744073709551615 = ⟨1, 2⟩ ∧
    const_iterator.plus example_views ⟨1, 3⟩ 18446744073709551615 = ⟨1, 2⟩ ∧
    const_iterator.plus_left example_views 18446744073709551615 ⟨1, 3⟩ = ⟨1, 2⟩ ∧
    2 ≠ min (example_views 1).size_ (3 + 18446744073709551615) ∧ 2 < 3 := by
  decide

/-- C20: for an iterator bound to a view of size `L` at a position `p <= L`, increment moves
it to `min(p + 1, L)`, decrement moves it to `p - 1` if `p > 0` and leaves it at 0
otherwise; the prefix forms return the moved iterator, the postfix forms return an iterator
at the old position `p` bound to the same view and leave the iterator itself moved. -/
theorem increment_decrement (vs : Views) (w p : Nat) (hL : (vs w).size_ < 2 ^ 64)
    (hp : p ≤ (vs w).size_) :
    const_iterator.pre_increment vs ⟨w, p⟩ = ⟨w, min (p + 1) (vs w).size_⟩ ∧
    const_iterator.pre_decrement ⟨w, p⟩ = ⟨w, if p > 0 then p - 1 else 0⟩ ∧
    const_iterator.post_increment vs ⟨w, p⟩ = (⟨w, p⟩, ⟨w, min (p + 1) (vs w).size_⟩) ∧
    const_iterator.post_decrement ⟨w, p⟩ = (⟨w, p⟩, ⟨w, if p > 0 then p - 1 else 0⟩) := by
  have hinc : const_iterator.pre_increment vs ⟨w, p⟩ = ⟨w, min (p + 1) (vs w).size_⟩ := by
    by_cases h : p < (vs w).size_
    · have e : sz_add p 1 = p + 1 := sz_add_small p 1 (by omega)
      have hm : min (p + 1) (vs w).size_ = p + 1 := by omega
      simp only [const_iterator.pre_increment, h, if_true, e, hm]
    · have hm : min (p + 1) (vs w).size_ = p := by omega
      simp only [const_iterator.pre_increment, h, if_false, hm]
  have hdec : const_iterator.pre_decrement ⟨w, p⟩ = ⟨w, if p > 0 then p - 1 else 0⟩ := by
    by_cases h : p > 0
    · have e : sz_sub p 1 = p - 1 := sz_sub_small p 1 (by omega) (by omega)
      simp only [const_iterator.pre_decrement, h, if_true, e]
    · have h0 : p = 0 := by omega
      subst h0
      simp [const_iterator.pre_decrement]
  refine ⟨hinc, hdec, ?_, ?_⟩
  · rw [const_iterator.post_increment, hinc]
  · rw [const_iterator.post_decrement, hdec]

theorem increment_decrement_witness :
    ((example_views 1).size_ < 2 ^ 64 ∧ 5 ≤ (example_views 1).size_) ∧
    const_iterator.pre_increment example_views ⟨1, 5⟩ = ⟨1, min (5 + 1) (example_views 1).size_⟩ ∧
    const_iterator.pre_decrement ⟨1, 5⟩ = ⟨1, if 5 > 0 then 5 - 1 else 0⟩ ∧
    const_iterator.post_increment example_views ⟨1, 5⟩
      = (⟨1, 5⟩, ⟨1, min (5 + 1) (example_views 1).size_⟩) ∧
    const_iterator.post_decrement ⟨1, 5⟩ = (⟨1, 5⟩, ⟨1, if 5 > 0 then 5 - 1 else 0⟩) :=
  ⟨⟨by decide, by decide⟩, increment_decrement example_views 1 5 (by decide) (by decide)⟩

/-- C21: `begin()` and `end()` of a view of size `L` are bound to it at the positions 0 and
`L`, and for every iterator bound to that view at a position in `[0, L]` each of `++`, `--`,
`+= n` and `-= n` leaves the iterator bound to the same view at a position in `[0, L]`. -/
theorem position_invariant (vs : Views) (w p n : Nat) (hp : p ≤ (vs w).size_) :
    basic_string_view.begin w = ⟨w, 0⟩ ∧
    basic_string_view.end_ vs w = ⟨w, (vs w).size_⟩ ∧
    ((const_iterator.pre_increment vs ⟨w, p⟩).view_ = w ∧
      (const_iterator.pre_increment vs ⟨w, p⟩).pos_ ≤ (vs w).size_) ∧
    ((const_iterator.pre_decrement ⟨w, p⟩).view_ = w ∧
      (const_iterator.pre_decrement ⟨w, p⟩).pos_ ≤ (vs w).size_) ∧
    ((const_iterator.add_assign vs ⟨w, p⟩ n).view_ = w ∧
      (const_iterator.add_assign vs ⟨w, p⟩ n).pos_ ≤ (vs w).size_) ∧
    ((const_iterator.sub_assign vs ⟨w, p⟩ n).view_ = w ∧
      (const_iterator.sub_assign vs ⟨w, p⟩ n).pos_ ≤ (vs w).size_) := by
  refine ⟨rfl, rfl, ?_, ?_, ?_, ?_⟩
  · by_cases h : p < (vs w).size_
    · have e : sz_add p 1 ≤ p + 1 := by unfold sz_add size_mod; omega
      simp only [const_iterator.pre_increment, h, if_true, true_and]
      omega
    · simp only [const_iterator.pre_increment, h, if_false, true_and]
      exact hp
  · by_cases h : p > 0
    · have e : sz_sub p 1 ≤ p := by unfold sz_sub size_mod; omega
      simp only [const_iterator.pre_decrement, h, if_true, true_and]
      omega
    · simp only [const_iterator.pre_decrement, h, if_false, true_and]
      exact hp
  · simp only [const_iterator.add_assign, true_and]
    exact Nat.min_le_left _ _
  · by_cases h : sz_sub p n > (vs w).size_
    · simp only [const_iterator.sub_assign, h, if_true, true_and]
      exact Nat.zero_le _
    · simp only [const_iterator.sub_assign, h, if_false, true_and]
      omega

theorem position_invariant_witness :
    (3 ≤ (example_views 1).size_) ∧
    ((const_iterator.sub_assign example_views ⟨1, 3⟩ 4).view_ = 1 ∧
      (const_iterator.sub_assign example_views ⟨1, 3⟩ 4).pos_ ≤ (example_views 1).size_) :=
  ⟨by decide, (position_invariant example_views 1 3 4 (by decide)).2.2.2.2.2⟩

/-- C22: for `n <= v.size()`, after `v.remove_prefix(n)` the view has size `v.size() - n`
and its units are the old units `n .. v.size() - 1` in order; after `v.remove_suffix(n)`
the view has size `v.size() - n`, the same data pointer, and its units are the old units
`0 .. v.size() - n - 1` in order.  Both calls work on the two fields of the view only, so
the units are read from the same, unchanged memory. -/
theorem remove_ends (m : Mem) (v : basic_string_view) (n : Nat) (hv : v.size_ < 2 ^ 64)
    (hn : n ≤ v.size_) :
    ( basic_string_view.remove_prefix v n).size_ = v.size_ - n ∧
    (∀ i, i < v.size_ - n →
      basic_string_view.index m ( basic_string_view.remove_prefix v n) i
        = basic_string_view.index m v (n + i)) ∧
    (basic_string_view.remove_suffix v n).size_ = v.size_ - n ∧
    (basic_string_view.remove_suffix v n).ptr_ = v.ptr_ ∧
    (∀ i, i < v.size_ - n →
      basic_string_view.index m (basic_string_view.remove_suffix v n) i
        = basic_string_view.index m v i) := by
  have e : sz_sub v.size_ n = v.size_ - n := sz_sub_small _ _ hv hn
  refine ⟨?_, fun i _ => ?_, ?_, rfl, fun i _ => rfl⟩
  · simp only [ basic_string_view.remove_prefix, e]
  · simp only [ basic_string_view.remove_prefix, basic_string_view.index, Nat.add_assoc]
  · simp only [basic_string_view.remove_suffix, e]

theorem remove_ends_witness :
    ((5 : Nat) < 2 ^ 64 ∧ 3 ≤ 5) ∧
    ( basic_string_view.remove_prefix ⟨100, 5⟩ 3).size_ = 5 - 3 ∧
    (∀ i, i < 5 - 3 →
      basic_string_view.index example_mem ( basic_string_view.remove_prefix ⟨100, 5⟩ 3) i
        = basic_string_view.index example_mem ⟨100, 5⟩ (3 + i)) ∧
    (basic_string_view.remove_suffix ⟨100, 5⟩ 3).size_ = 5 - 3 ∧
    (basic_string_view.remove_suffix ⟨100, 5⟩ 3).ptr_ = 100 ∧
    (∀ i, i < 5 - 3 →
      basic_string_view.index example_mem (basic_string_view.remove_suffix ⟨100, 5⟩ 3) i
        = basic_string_view.index example_mem ⟨100, 5⟩ i) :=
  ⟨⟨by decide, by decide⟩, remove_ends example_mem ⟨100, 5⟩ 3 (by decide) (by decide)⟩

theorem std_range_units_walk {I : Type} {ops : Iter I} {pt : Nat → I} {N : Nat} {s : Nat → Nat}
    (w : Walk ops pt N s) :
    ∀ (fuel k : Nat), k ≤ N → N - k < fuel →
      ∃ l : List Nat, std_range_units ops (pt N) fuel (pt k) = some l ∧ l.length = N - k ∧
        ∀ i, i < N - k → l[i]? = some (s (k + i)) := by
  intro fuel
  induction fuel with
  | zero => intro k _ h; omega
  | succ fuel ih =>
    intro k hk hf
    rw [std_range_units]
    by_cases hkN : k = N
    · subst hkN
      rw [if_pos ((w.eq_pt k k hk hk).2 rfl)]
      exact ⟨[], rfl, by simp, fun i hi => by omega⟩
    · have hlt : k < N := by omega
      have hne : ¬ (ops.eq (pt k) (pt N) = true) := fun h => hkN ((w.eq_pt k N hk (le_refl _)).1 h)
      rw [if_neg hne, w.deref_pt k hlt, w.next_pt k hlt]
      obtain ⟨l, hl, hlen, hidx⟩ := ih (k + 1) hlt (by omega)
      rw [hl]
      refine ⟨s k :: l, rfl, by simp only [List.length_cons, hlen]; omega, fun i hi => ?_⟩
      cases i with
      | zero => simp
      | succ i =>
        have := hidx i (by omega)
        have e : k + (i + 1) = k + 1 + i := by omega
        rw [e, List.getElem?_cons_succ]
        exact this

/-- C23: `to_string(v)` is a string of length `v.size()` whose `k`-th unit is unit `k` of
`v`, for every `k < v.size()`. -/
theorem to_string_units (fuel : Nat) (m : Mem) (vs : Views) (v : Nat)
    (hN : (vs v).size_ < 2 ^ 64) (hfuel : (vs v).size_ < fuel) :
    ∃ l : List Nat, to_string fuel m vs v = some l ∧ l.length = (vs v).size_ ∧
      ∀ k, k < (vs v).size_ → l[k]? = some (basic_string_view.index m (vs v) k) := by
  obtain ⟨l, hl, hlen, hidx⟩ :=
    std_range_units_walk (forward_walk vs m v hN) fuel 0 (Nat.zero_le _) (by omega)
  refine ⟨l, hl, by omega, fun k hk => ?_⟩
  have := hidx k (by omega)
  rw [Nat.zero_add] at this
  exact this

theorem to_string_units_witness :
    ((example_views 1).size_ < 2 ^ 64 ∧ (example_views 1).size_ < 8) ∧
    ∃ l : List Nat, to_string 8 example_mem example_views 1 = some l ∧
      l.length = (example_views 1).size_ ∧
      ∀ k, k < (example_views 1).size_ →
        l[k]? = some (basic_string_view.index example_mem (example_views 1) k) :=
  ⟨⟨by decide, by decide⟩, to_string_units 8 example_mem example_views 1 (by decide) (by decide)⟩

/-- C24: with an empty needle set `v`, `h.find_first_of(v, pos)` and `h.find_last_of(v, pos)`
return `npos` for every `h` and every offset `pos`. -/
theorem empty_set_never_matches (fuel : Nat) (m : Mem) (vs : Views) (self v pos : Nat)
    (hN : (vs self).size_ < 2 ^ 64) (hM : (vs v).size_ = 0) (hpos : pos < 2 ^ 64)
    (hfuel : (vs self).size_ < fuel) :
    basic_string_view.find_first_of fuel m vs self v pos = some npos ∧
    basic_string_view.find_last_of fuel m vs self v pos = some npos := by
  have hno : ∀ c, ¬ member_of m (vs v) c := by
    rintro c ⟨i, hi, _⟩
    omega
  obtain ⟨q, hq, hfa⟩ := find_first_of_spec fuel m vs self v pos hN (by omega) hpos (by omega)
  obtain ⟨r, hr, hfb⟩ := find_last_of_spec fuel m vs self v pos hN (by omega) (by omega)
  have hqN : q = (vs self).size_ := by
    by_contra hc
    have hlt : q < (vs self).size_ := by have := hfa.2.1; omega
    exact hno _ (hfa.2.2.1 hlt)
  have hrN : r = (vs self).size_ := by
    by_contra hc
    have hlt : r < (vs self).size_ := by have := hfb.2.1; omega
    exact hno _ (hfb.2.2.1 hlt)
  rw [hq, hr, if_pos hqN, if_pos hrN]
  exact ⟨rfl, rfl⟩

theorem empty_set_never_matches_witness :
    ((empty_needle_views 1).size_ < 2 ^ 64 ∧ (empty_needle_views 2).size_ = 0 ∧ 1 < 2 ^ 64 ∧
      (empty_needle_views 1).size_ < 8) ∧
    basic_string_view.find_first_of 8 example_mem empty_needle_views 1 2 1 = some npos ∧
    basic_string_view.find_last_of 8 example_mem empty_needle_views 1 2 1 = some npos :=
  ⟨⟨by decide, by decide, by decide, by decide⟩,
    empty_set_never_matches 8 example_mem empty_needle_views 1 2 1 (by decide) (by decide)
      (by decide) (by decide)⟩

/-- C25: for an offset `pos >= h.size()`, `h.rfind(v, pos)` returns what `h.rfind(v)` with
the default offset `npos` returns: the whole view is searched. -/
theorem rfind_offset_too_large (fuel : Nat) (m : Mem) (vs : Views) (self v pos : Nat)
    (hN : (vs self).size_ < 2 ^ 64) (hM : (vs v).size_ < 2 ^ 64)
    (hfuel : (vs self).size_ + (vs v).size_ < fuel) (hge : pos ≥ (vs self).size_) :
    basic_string_view.rfind fuel m vs self v pos = basic_string_view.rfind fuel m vs self v npos ∧
    ∃ r, basic_string_view.rfind fuel m vs self v pos = some r := by
  have hnp : npos ≥ (vs self).size_ := by rw [npos_eq]; omega
  refine ⟨?_, ?_⟩
  · unfold basic_string_view.rfind
    simp only [hge, hnp, if_true]
  · obtain ⟨q, hq, _⟩ := rfind_spec fuel m vs self v pos hN hM hfuel
    exact ⟨_, hq⟩

theorem rfind_offset_too_large_witness :
    ((example_views 1).size_ < 2 ^ 64 ∧ (example_views 2).size_ < 2 ^ 64 ∧
      (example_views 1).size_ + (example_views 2).size_ < 8 ∧ 6 ≥ (example_views 1).size_) ∧
    basic_string_view.rfind 8 example_mem example_views 1 2 6
      = basic_string_view.rfind 8 example_mem example_views 1 2 npos ∧
    ∃ r, basic_string_view.rfind 8 example_mem example_views 1 2 6 = some r :=
  ⟨⟨by decide, by decide, by decide, by decide⟩,
    rfind_offset_too_large 8 example_mem example_views 1 2 6 (by decide) (by decide)
      (by decide) (by decide)⟩

/-- C26: walking from `v.rbegin()` by `++` until the iterator equals `v.rend()` takes
exactly `v.size()` steps, and the `k`-th dereference yields unit `v.size() - 1 - k` of `v`:
the units are visited in reverse order. -/
theorem reverse_iteration (fuel : Nat) (m : Mem) (vs : Views) (self : Nat)
    (hN : (vs self).size_ < 2 ^ 64) (hfuel : (vs self).size_ < fuel) :
    ∃ l : List Nat, reverse_traversal fuel m vs self = some l ∧ l.length = (vs self).size_ ∧
      ∀ k, k < (vs self).size_ →
        l[k]? = some (basic_string_view.index m (vs self) ((vs self).size_ - 1 - k)) := by
  obtain ⟨l, hl, hlen, hidx⟩ :=
    std_range_units_walk (reverse_walk vs m self hN) fuel 0 (Nat.zero_le _) (by omega)
  refine ⟨l, ?_, by omega, fun k hk => ?_⟩
  · simp only [Nat.sub_zero, Nat.sub_self] at hl
    exact hl
  · have := hidx k (by omega)
    rw [Nat.zero_add] at this
    exact this

theorem reverse_iteration_witness :
    ((example_views 1).size_ < 2 ^ 64 ∧ (example_views 1).size_ < 8) ∧
    ∃ l : List Nat, reverse_traversal 8 example_mem example_views 1 = some l ∧
      l.length = (example_views 1).size_ ∧
      ∀ k, k < (example_views 1).size_ →
        l[k]? = some (basic_string_view.index example_mem (example_views 1)
          ((example_views 1).size_ - 1 - k)) :=
  ⟨⟨by decide, by decide⟩, reverse_iteration 8 example_mem example_views 1 (by decide) (by decide)⟩

/-- C27: if `h.find(v, pos)` returns an index `r` other than `npos`, then `pos <= r`, `v`
occurs in `h` at position `r` (it fits and the units are equal), and `v` occurs at no
position `p` with `pos <= p < r`. -/
theorem find_sound (fuel : Nat) (m : Mem) (vs : Views) (self v pos r : Nat)
    (hN : (vs self).size_ < 2 ^ 64) (hM : (vs v).size_ < 2 ^ 64) (hpos : pos < 2 ^ 64)
    (hfuel : (vs self).size_ + (vs v).size_ < fuel)
    (hr : basic_string_view.find fuel m vs self v pos = some r) (hne : r ≠ npos) :
    pos ≤ r ∧ r + (vs v).size_ ≤ (vs self).size_ ∧
    (∀ j, j < (vs v).size_ →
      basic_string_view.index m (vs self) (r + j) = basic_string_view.index m (vs v) j) ∧
    (∀ p, pos ≤ p → p < r → ¬ occurs_at m (vs self) (vs v) p) := by
  obtain ⟨q, hq, hfa⟩ := find_spec fuel m vs self v pos hN hM hpos hfuel
  rw [hq] at hr
  have hqN : q ≠ (vs self).size_ := by
    intro h
    rw [if_pos h] at hr
    exact hne (Option.some.inj hr).symm
  rw [if_neg hqN] at hr
  have hqr : q = r := Option.some.inj hr
  subst hqr
  have hlt : q < (vs self).size_ := by have := hfa.2.1; omega
  have hocc := hfa.2.2.1 hlt
  have hge := hfa.1
  refine ⟨by omega, hocc.1, hocc.2, fun p h1 h2 => hfa.2.2.2 p (by omega) h2⟩

theorem find_sound_witness :
    ((example_views 1).size_ < 2 ^ 64 ∧ (example_views 2).size_ < 2 ^ 64 ∧ 1 < 2 ^ 64 ∧
      (example_views 1).size_ + (example_views 2).size_ < 8 ∧
      basic_string_view.find 8 example_mem example_views 1 2 1 = some 3 ∧ 3 ≠ npos) ∧
    (1 ≤ 3 ∧ 3 + (example_views 2).size_ ≤ (example_views 1).size_ ∧
    (∀ j, j < (example_views 2).size_ →
      basic_string_view.index example_mem (example_views 1) (3 + j)
        = basic_string_view.index example_mem (example_views 2) j) ∧
    (∀ p, 1 ≤ p → p < 3 → ¬ occurs_at example_mem (example_views 1) (example_views 2) p)) :=
  ⟨⟨by decide, by decide, by decide, by decide, by decide, by decide⟩,
    find_sound 8 example_mem example_views 1 2 1 3 (by decide) (by decide) (by decide)
      (by decide) (by decide) (by decide)⟩

theorem same_units_trans (m : Mem) (a b c : basic_string_view) (h1 : same_units m a b)
    (h2 : same_units m b c) : same_units m a c :=
  ⟨h1.1.trans h2.1, fun i hi => (h1.2 i hi).trans (h2.2 i (by rw [← h1.1]; exact hi))⟩

theorem lex_less_same (m : Mem) (a b c : basic_string_view) (h1 : lex_less m a b)
    (h2 : same_units m b c) : lex_less m a c := by
  obtain ⟨hsz, hall⟩ := h2
  rcases h1 with ⟨k, ka, kb, hpre, hlt⟩ | ⟨gsz, gpre⟩
  · left
    refine ⟨k, ka, by omega, fun j hj => ?_, ?_⟩
    · rw [hpre j hj]; exact hall j (by omega)
    · rw [← hall k kb]; exact hlt
  · right
    exact ⟨by omega, fun j hj => (gpre j hj).trans (hall j (by omega))⟩

theorem same_lex_less (m : Mem) (a b c : basic_string_view) (h1 : same_units m a b)
    (h2 : lex_less m b c) : lex_less m a c := by
  obtain ⟨hsz, hall⟩ := h1
  rcases h2 with ⟨k, kb, kc, hpre, hlt⟩ | ⟨gsz, gpre⟩
  · left
    refine ⟨k, by omega, kc, fun j hj => ?_, ?_⟩
    · rw [hall j (by omega)]; exact hpre j hj
    · rw [hall k (by omega)]; exact hlt
  · right
    exact ⟨by omega, fun j hj => (hall j hj).trans (gpre j (by omega))⟩

theorem lex_less_trans (m : Mem) (a b c : basic_string_view) (h1 : lex_less m a b)
    (h2 : lex_less m b c) : lex_less m a c := by
  rcases h1 with ⟨k, ka, kb, hpre, hlt⟩ | ⟨hsz, hpre⟩
  · rcases h2 with ⟨l, lb, lc, gpre, glt⟩ | ⟨gsz, gpre⟩
    · left
      rcases Nat.lt_trichotomy k l with h | h | h
      · refine ⟨k, ka, by omega, fun j hj => ?_, ?_⟩
        · rw [hpre j hj]; exact gpre j (by omega)
        · rw [← gpre k h]; exact hlt
      · subst h
        refine ⟨k, ka, lc, fun j hj => ?_, by omega⟩
        rw [hpre j hj]; exact gpre j hj
      · refine ⟨l, by omega, lc, fun j hj => ?_, ?_⟩
        · rw [hpre j (by omega)]; exact gpre j hj
        · rw [hpre l h]; exact glt
    · left
      refine ⟨k, ka, by omega, fun j hj => ?_, ?_⟩
      · rw [hpre j hj]; exact gpre j (by omega)
      · rw [← gpre k kb]; exact hlt
  · rcases h2 with ⟨l, lb, lc, gpre, glt⟩ | ⟨gsz, gpre⟩
    · by_cases h : l < a.size_
      · left
        refine ⟨l, h, lc, fun j hj => ?_, ?_⟩
        · rw [hpre j (by omega)]; exact gpre j hj
        · rw [hpre l h]; exact glt
      · right
        refine ⟨by omega, fun j hj => ?_⟩
        rw [hpre j hj]; exact gpre j (by omega)
    · right
      refine ⟨by omega, fun j hj => ?_⟩
      rw [hpre j hj]; exact gpre j (by omega)

/-- C28: for views `a`, `b`, `c` over non-null buffers, `a.compare(b) <= 0` and
`b.compare(c) <= 0` give `a.compare(c) <= 0`, and two results `0` give the result `0`;
`operator<` holds exactly when the units of the left view are lexicographically smaller, it
is irreflexive and transitive, and of two views either one is smaller or they have the same
units, whether or not the same-pointer-and-length fast path fires. -/
theorem compare_transitive (m : Mem) (a b c : basic_string_view) (ha : a.ptr_ ≠ 0)
    (hb : b.ptr_ ≠ 0) (hc : c.ptr_ ≠ 0) :
    (∃ rab rbc rac, basic_string_view.compare m a b = Except.ok rab ∧
      basic_string_view.compare m b c = Except.ok rbc ∧
      basic_string_view.compare m a c = Except.ok rac ∧
      (rab ≤ 0 → rbc ≤ 0 → rac ≤ 0) ∧ (rab = 0 → rbc = 0 → rac = 0)) ∧
    (basic_string_view.op_lt m a b = Except.ok true ↔ lex_less m a b) ∧
    basic_string_view.op_lt m a a = Except.ok false ∧
    (basic_string_view.op_lt m a b = Except.ok true →
      basic_string_view.op_lt m b c = Except.ok true →
      basic_string_view.op_lt m a c = Except.ok true) ∧
    (basic_string_view.op_lt m a b = Except.ok true ∨ same_units m a b ∨
      basic_string_view.op_lt m b a = Except.ok true) := by
  have hlt : ∀ (x y : basic_string_view), x.ptr_ ≠ 0 → y.ptr_ ≠ 0 →
      (basic_string_view.op_lt m x y = Except.ok true ↔ lex_less m x y) := by
    intro x y hx hy
    obtain ⟨r, e, h1, _, _, _⟩ := compare_lexicographic m x y hx hy
    rw [basic_string_view.op_lt, e]
    constructor
    · intro h
      have : decide (r < 0) = true := by simpa [Except.map] using h
      exact h1.1 (of_decide_eq_true this)
    · intro h
      have : decide (r < 0) = true := decide_eq_true (h1.2 h)
      simp [Except.map, this]
  obtain ⟨rab, eab, ab1, ab2, ab3, _⟩ := compare_lexicographic m a b ha hb
  obtain ⟨rbc, ebc, bc1, bc2, bc3, _⟩ := compare_lexicographic m b c hb hc
  obtain ⟨rac, eac, ac1, ac2, ac3, _⟩ := compare_lexicographic m a c ha hc
  have hle : ∀ r : Int, r ≤ 0 → r < 0 ∨ r = 0 := fun r h => by omega
  refine ⟨⟨rab, rbc, rac, eab, ebc, eac, fun h1 h2 => ?_, fun h1 h2 => ?_⟩, hlt a b ha hb, ?_,
    fun h1 h2 => ?_, ?_⟩
  · by_contra hpos
    have hca : lex_less m c a := ac2.1 (by omega)
    rcases hle rab h1 with g1 | g1 <;> rcases hle rbc h2 with g2 | g2
    · exact lex_less_asymm m a c (lex_less_trans m a b c (ab1.1 g1) (bc1.1 g2)) hca
    · exact lex_less_asymm m a c (lex_less_same m a b c (ab1.1 g1) (bc3.1 g2)) hca
    · exact lex_less_asymm m a c (same_lex_less m a b c (ab3.1 g1) (bc1.1 g2)) hca
    · exact lex_less_not_same m c a hca
        (same_units_symm m a c (same_units_trans m a b c (ab3.1 g1) (bc3.1 g2)))
  · exact ac3.2 (same_units_trans m a b c (ab3.1 h1) (bc3.1 h2))
  · have e : basic_string_view.compare m a a = Except.ok 0 := by
      rw [basic_string_view.compare, if_neg ha, if_neg ha, if_pos ⟨rfl, rfl⟩]
    rw [basic_string_view.op_lt, e]
    rfl
  · exact (hlt a c ha hc).2
      (lex_less_trans m a b c ((hlt a b ha hb).1 h1) ((hlt b c hb hc).1 h2))
  · rcases compare_cases m a b ha hb with ⟨_, h⟩ | ⟨_, h⟩ | ⟨_, h⟩
    · exact Or.inl ((hlt a b ha hb).2 h)
    · exact Or.inr (Or.inr ((hlt b a hb ha).2 h))
    · exact Or.inr (Or.inl h)

theorem compare_transitive_witness :
    ((200 : Nat) ≠ 0 ∧ (100 : Nat) ≠ 0 ∧ (102 : Nat) ≠ 0) ∧
    (∃ rab rbc rac, basic_string_view.compare example_mem ⟨200, 2⟩ ⟨100, 5⟩ = Except.ok rab ∧
      basic_string_view.compare example_mem ⟨100, 5⟩ ⟨102, 3⟩ = Except.ok rbc ∧
      basic_string_view.compare example_mem ⟨200, 2⟩ ⟨102, 3⟩ = Except.ok rac ∧
      (rab ≤ 0 → rbc ≤ 0 → rac ≤ 0) ∧ (rab = 0 → rbc = 0 → rac = 0)) :=
  ⟨⟨by decide, by decide, by decide⟩,
    (compare_transitive example_mem ⟨200, 2⟩ ⟨100, 5⟩ ⟨102, 3⟩ (by decide) (by decide)
      (by decide)).1⟩

/-- C29 (amended): for every pair of views `a` and `b` whose data pointers are both not
null, `a.compare(b)` and `a == b` reach a result without violating `assert(ptr_)` or
`assert(v.ptr_)`; a view with a null data pointer on either side violates one of them. -/
theorem compare_assertions (m : Mem) (a b : basic_string_view) :
    (a.ptr_ ≠ 0 ∧ b.ptr_ ≠ 0 →
      ∃ r, basic_string_view.compare m a b = Except.ok r ∧
        basic_string_view.op_eq m a b = Except.ok (r == 0)) ∧
    (a.ptr_ = 0 ∨ b.ptr_ = 0 →
      basic_string_view.compare m a b = Except.error Failure.assertion ∧
      basic_string_view.op_eq m a b = Except.error Failure.assertion) := by
  constructor
  · rintro ⟨ha, hb⟩
    rcases compare_cases m a b ha hb with ⟨e, _⟩ | ⟨e, _⟩ | ⟨e, _⟩ <;>
      exact ⟨_, e, by rw [basic_string_view.op_eq, e]; rfl⟩
  · intro h
    have hc : basic_string_view.compare m a b = Except.error Failure.assertion := by
      rw [basic_string_view.compare]
      by_cases ha : a.ptr_ = 0
      · rw [if_pos ha]
      · have hb : b.ptr_ = 0 := by
          rcases h with h | h
          · exact absurd h ha
          · exact h
        rw [if_neg ha, if_pos hb]
    exact ⟨hc, by rw [basic_string_view.op_eq, hc]; rfl⟩

/-- C29 as stated fails for default-constructed views: they satisfy the View invariant (null
data pointer, count 0), yet `a.compare(b)` and `a == b` violate `assert(ptr_)`. -/
theorem compare_assertions_counterexample :
    valid_view basic_string_view.default_view ∧
    basic_string_view.compare example_mem basic_string_view.default_view
      basic_string_view.default_view = Except.error Failure.assertion ∧
    basic_string_view.op_eq example_mem basic_string_view.default_view
      basic_string_view.default_view = Except.error Failure.assertion ∧
    valid_view ⟨100, 5⟩ ∧
    basic_string_view.compare example_mem ⟨100, 5⟩ basic_string_view.default_view
      = Except.error Failure.assertion := by
  refine ⟨fun _ => rfl, rfl, rfl, fun h => ?_, rfl⟩
  exact absurd h (by decide)

end backport
